import Mathlib

/-!
Verification of the ESC-POS decoder/codec/merger pipeline
(`escpos_verifier.py`) against its specification.

The Python source is shallowly embedded: bytes are natural numbers,
byte buffers are `List Nat`, the mutable PIL pixel buffer is a function
`Nat → Nat → Bool` (`true` = black) updated pointwise, and the
imperative loops become structural recursions / folds threading the
same state the Python threads (the running data index, the pixel map,
the parse cursor).
-/

namespace EscPos

/-- Pixel maps: `px x y = true` means the pixel at column `x`, row `y`
is black.  The PIL image starts all white, i.e. all `false`. -/
def PxMap := Nat → Nat → Bool

/-- Embeds `pixels[x, y] = v` on a PIL pixel access object. -/
def setPixel (px : PxMap) (x y : Nat) (v : Bool) : PxMap :=
  fun a b => if a = x ∧ b = y then v else px a b

/-- Inner loop of `_decode_bit_image`: `for bit in range(8)`, writing the
eight vertical pixels of one column byte.  `bits` is the remaining bit
positions; the loop breaks as soon as `y = byteIdx*8 + (7-bit)` reaches
`height`. -/
def writeColByte (x byteIdx byte height : Nat) : List Nat → PxMap → PxMap
  | [], px => px
  | bit :: rest, px =>
    if height ≤ byteIdx * 8 + (7 - bit) then px
    else writeColByte x byteIdx byte height rest
      (setPixel px x (byteIdx * 8 + (7 - bit)) (byte.testBit bit))

/-- Middle loop of `_decode_bit_image`: `for byte_idx in range(bytes_per_column)`,
reading one byte per iteration from the running data index and breaking
when the data is exhausted.  Returns the final data index and pixel map. -/
def writeColumn (data : List Nat) (x height : Nat) : List Nat → Nat → PxMap → Nat × PxMap
  | [], idx, px => (idx, px)
  | byteIdx :: rest, idx, px =>
    if data.length ≤ idx then (idx, px)
    else writeColumn data x height rest (idx + 1)
      (writeColByte x byteIdx (data.getD idx 0) height (List.range 8) px)

/-- Outer loop of `_decode_bit_image`: `for x in range(width_dots)`. -/
def decodeColumns (data : List Nat) (height c : Nat) (xs : List Nat) (s : Nat × PxMap) :
    Nat × PxMap :=
  xs.foldl (fun s xc => writeColumn data xc height (List.range c) s.1 s.2) s

/-- The `_decode_bit_image` routine (ESC `*` band images, column-major):
a fresh all-white image of the given size, filled column by column. -/
def decodeBitImage (width height c : Nat) (data : List Nat) : PxMap :=
  (decodeColumns data height c (List.range width) (0, fun _ _ => false)).2

theorem writeColByte_frame (x byteIdx byte height : Nat) (bits : List Nat) (px : PxMap)
    (a b : Nat) (h : a ≠ x ∨ b < byteIdx * 8 ∨ byteIdx * 8 + 8 ≤ b) :
    writeColByte x byteIdx byte height bits px a b = px a b := by
  induction bits generalizing px with
  | nil => rfl
  | cons bit rest ih =>
    simp only [writeColByte]
    split
    · rfl
    · rw [ih]
      simp only [setPixel]
      rw [if_neg]
      rintro ⟨rfl, rfl⟩
      rcases h with h | h | h
      · exact h rfl
      · omega
      · omega

theorem writeColByte_val (x byteIdx byte height : Nat) (bits : List Nat)
    (hbits : ∀ bit ∈ bits, bit < 8) (px : PxMap) (i : Nat) (hi : i < 8)
    (hh : byteIdx * 8 + 8 ≤ height) :
    writeColByte x byteIdx byte height bits px x (byteIdx * 8 + i) =
      if (7 - i) ∈ bits then byte.testBit (7 - i) else px x (byteIdx * 8 + i) := by
  induction bits generalizing px with
  | nil => simp [writeColByte]
  | cons bit rest ih =>
    have hbit : bit < 8 := hbits bit (List.mem_cons_self bit rest)
    simp only [writeColByte]
    rw [if_neg (by omega)]
    rw [ih (fun b hb => hbits b (List.mem_cons_of_mem bit hb))]
    by_cases hmem : (7 - i) ∈ rest
    · rw [if_pos hmem, if_pos (List.mem_cons_of_mem bit hmem)]
    · rw [if_neg hmem]
      by_cases heq : i = 7 - bit
      · have h7 : 7 - i = bit := by omega
        have hmem2 : (7 - i) ∈ bit :: rest := by
          rw [h7]; exact List.mem_cons_self bit rest
        rw [if_pos hmem2, h7]
        simp only [setPixel]
        rw [if_pos ⟨trivial, by omega⟩]
      · have h7 : 7 - i ≠ bit := by omega
        have hmem2 : (7 - i) ∉ bit :: rest := by
          intro hc
          rcases List.mem_cons.mp hc with h | h
          · exact h7 h
          · exact hmem h
        rw [if_neg hmem2]
        simp only [setPixel]
        rw [if_neg]
        rintro ⟨-, hb⟩
        omega

theorem writeColByte_range (x byteIdx byte height : Nat) (px : PxMap) (i : Nat) (hi : i < 8)
    (hh : byteIdx * 8 + 8 ≤ height) :
    writeColByte x byteIdx byte height (List.range 8) px x (byteIdx * 8 + i) =
      byte.testBit (7 - i) := by
  rw [writeColByte_val x byteIdx byte height (List.range 8)
    (fun b hb => List.mem_range.mp hb) px i hi hh]
  rw [if_pos (List.mem_range.mpr (by omega))]

theorem writeColumn_spec (data : List Nat) (x height : Nat) (k : Nat) :
    ∀ (j idx : Nat) (px : PxMap), idx + k ≤ data.length → (j + k) * 8 ≤ height →
    (writeColumn data x height (List.range' j k) idx px).1 = idx + k ∧
    ∀ a b,
      (writeColumn data x height (List.range' j k) idx px).2 a b =
        if a = x ∧ j * 8 ≤ b ∧ b < (j + k) * 8 then
          (data.getD (idx + (b / 8 - j)) 0).testBit (7 - b % 8)
        else px a b := by
  induction k with
  | zero =>
    intro j idx px _ _
    refine ⟨by simp [writeColumn, List.range'], ?_⟩
    intro a b
    rw [if_neg (by omega)]
    simp [writeColumn, List.range']
  | succ k ih =>
    intro j idx px hlen hh
    have hcons : List.range' j (k + 1) = j :: List.range' (j + 1) k := by
      simp [List.range'_succ]
    rw [hcons]
    have hidx : ¬ data.length ≤ idx := by omega
    simp only [writeColumn, hidx, if_false]
    have hlen' : (idx + 1) + k ≤ data.length := by omega
    have hh' : (j + 1 + k) * 8 ≤ height := by
      have : j + 1 + k = j + (k + 1) := by omega
      rw [this]; exact hh
    obtain ⟨h1, h2⟩ := ih (j + 1) (idx + 1)
      (writeColByte x j (data.getD idx 0) height (List.range 8) px) hlen' hh'
    refine ⟨by rw [h1]; omega, ?_⟩
    intro a b
    rw [h2 a b]
    by_cases hin : a = x ∧ (j + 1) * 8 ≤ b ∧ b < (j + 1 + k) * 8
    · rw [if_pos hin, if_pos (by omega)]
      have : idx + 1 + (b / 8 - (j + 1)) = idx + (b / 8 - j) := by omega
      rw [this]
    · rw [if_neg hin]
      by_cases hcol : a = x ∧ j * 8 ≤ b ∧ b < (j + 1) * 8
      · obtain ⟨ha, hb1, hb2⟩ := hcol
        subst ha
        have hbeq : b = j * 8 + b % 8 := by omega
        have hhj : j * 8 + 8 ≤ height := by omega
        rw [if_pos (by omega)]
        conv_lhs => rw [hbeq]
        rw [writeColByte_range a j (data.getD idx 0) height px (b % 8) (by omega) hhj]
        have : idx + (b / 8 - j) = idx := by omega
        rw [this]
      · rw [if_neg (by omega)]
        apply writeColByte_frame
        by_cases ha : a = x
        · subst ha; right; omega
        · exact Or.inl ha

theorem decodeColumns_spec (data : List Nat) (height c : Nat) (cols : Nat) :
    ∀ (x0 idx : Nat) (px : PxMap), idx + cols * c ≤ data.length → c * 8 ≤ height →
    (decodeColumns data height c (List.range' x0 cols) (idx, px)).1 = idx + cols * c ∧
    ∀ a b,
      (decodeColumns data height c (List.range' x0 cols) (idx, px)).2 a b =
        if x0 ≤ a ∧ a < x0 + cols ∧ b < c * 8 then
          (data.getD (idx + (a - x0) * c + b / 8) 0).testBit (7 - b % 8)
        else px a b := by
  induction cols with
  | zero =>
    intro x0 idx px _ _
    refine ⟨by simp [decodeColumns, List.range'], ?_⟩
    intro a b
    rw [if_neg (by omega)]
    simp [decodeColumns, List.range']
  | succ cols ih =>
    intro x0 idx px hlen hh
    have hcons : List.range' x0 (cols + 1) = x0 :: List.range' (x0 + 1) cols := by
      simp [List.range'_succ]
    rw [hcons]
    have hmul : (cols + 1) * c = cols * c + c := Nat.succ_mul cols c
    have hclen : idx + c ≤ data.length := by omega
    have hch : (0 + c) * 8 ≤ height := by simpa using hh
    have hrange : List.range c = List.range' 0 c := List.range_eq_range' c
    obtain ⟨w1, w2⟩ := writeColumn_spec data x0 height c 0 idx px hclen hch
    have hfold : decodeColumns data height c (x0 :: List.range' (x0 + 1) cols) (idx, px) =
        decodeColumns data height c (List.range' (x0 + 1) cols)
          (writeColumn data x0 height (List.range c) idx px) := by
      simp [decodeColumns]
    rw [hfold]
    have hpair : writeColumn data x0 height (List.range c) idx px =
        ((writeColumn data x0 height (List.range c) idx px).1,
         (writeColumn data x0 height (List.range c) idx px).2) := rfl
    rw [hpair, hrange, w1]
    obtain ⟨h1, h2⟩ := ih (x0 + 1) (idx + c)
      ((writeColumn data x0 height (List.range' 0 c) idx px).2) (by omega) hh
    refine ⟨by rw [h1]; omega, ?_⟩
    intro a b
    rw [h2 a b]
    by_cases hin : x0 + 1 ≤ a ∧ a < x0 + 1 + cols ∧ b < c * 8
    · rw [if_pos hin, if_pos (by omega)]
      have hsub : a - x0 = (a - (x0 + 1)) + 1 := by omega
      have : idx + (a - x0) * c + b / 8 = idx + c + (a - (x0 + 1)) * c + b / 8 := by
        rw [hsub, Nat.succ_mul]; ring
      rw [this]
    · rw [if_neg hin]
      rw [w2 a b]
      by_cases hcol : a = x0 ∧ 0 * 8 ≤ b ∧ b < (0 + c) * 8
      · obtain ⟨ha, -, hb⟩ := hcol
        subst ha
        rw [if_pos (show a = a ∧ 0 * 8 ≤ b ∧ b < (0 + c) * 8 from ⟨rfl, by omega, hb⟩),
          if_pos (show a ≤ a ∧ a < a + (cols + 1) ∧ b < c * 8 from ⟨le_refl a, by omega, by omega⟩)]
        have : idx + (a - a) * c + b / 8 = idx + (b / 8 - 0) := by
          rw [Nat.sub_self]; simp
        rw [this]
      · rw [if_neg hcol, if_neg (by omega)]

/-- Claim C1 core: with a full data buffer of `w * c` bytes, the band
decoder paints pixel `(x, b*8+i)` black exactly when bit `7-i` of the
`b`-th byte of column `x` is set, and touches nothing outside the
`w × (c*8)` bitmap. -/
theorem C1_band_decoder (w c : Nat) (data : List Nat) (hlen : data.length = w * c) :
    (∀ x b i, x < w → b < c → i < 8 →
      decodeBitImage w (c * 8) c data x (b * 8 + i) =
        (data.getD (x * c + b) 0).testBit (7 - i)) ∧
    (∀ a y, w ≤ a ∨ c * 8 ≤ y → decodeBitImage w (c * 8) c data a y = false) := by
  have hbase : List.range w = List.range' 0 w := List.range_eq_range' w
  obtain ⟨-, h2⟩ := decodeColumns_spec data (c * 8) c w 0 0 (fun _ _ => false)
    (by omega) (le_refl _)
  constructor
  · intro x b i hx hb hi
    have hy : b * 8 + i < c * 8 := by
      calc b * 8 + i < (b + 1) * 8 := by omega
        _ ≤ c * 8 := Nat.mul_le_mul_right 8 (by omega)
    unfold decodeBitImage
    rw [hbase, h2 x (b * 8 + i), if_pos ⟨by omega, by omega, hy⟩]
    have hd : (b * 8 + i) / 8 = b := by omega
    have hm : (b * 8 + i) % 8 = i := by omega
    rw [hd, hm]
    have : 0 + (x - 0) * c + b = x * c + b := by simp
    rw [this]
  · intro a y h
    unfold decodeBitImage
    rw [hbase, h2 a y, if_neg (by omega)]

/-- Witness for C1 at a concrete band: width 2, one byte per column,
data bytes `[0xAA, 0x0F]`. -/
theorem C1_band_decoder_witness :
    decodeBitImage 2 8 1 [170, 15] 1 2 = (15 : Nat).testBit 5 := by
  have h := (C1_band_decoder 2 1 [170, 15] rfl).1 1 0 2 (by decide) (by decide) (by decide)
  simpa using h

/-- Inner loop of `_decode_raster_image`: `for bit in range(8)`, writing
eight horizontal pixels of one row byte, breaking once
`x = xByte*8 + (7-bit)` reaches `widthPixels`. -/
def writeRowByte (y xByte byte widthPixels : Nat) : List Nat → PxMap → PxMap
  | [], px => px
  | bit :: rest, px =>
    if widthPixels ≤ xByte * 8 + (7 - bit) then px
    else writeRowByte y xByte byte widthPixels rest
      (setPixel px (xByte * 8 + (7 - bit)) y (byte.testBit bit))

/-- Middle loop of `_decode_raster_image`: `for x_byte in range(width_bytes)`,
reading one byte per iteration and breaking when the data is exhausted. -/
def writeRow (data : List Nat) (y widthPixels : Nat) : List Nat → Nat → PxMap → Nat × PxMap
  | [], idx, px => (idx, px)
  | xByte :: rest, idx, px =>
    if data.length ≤ idx then (idx, px)
    else writeRow data y widthPixels rest (idx + 1)
      (writeRowByte y xByte (data.getD idx 0) widthPixels (List.range 8) px)

/-- Outer loop of `_decode_raster_image`: `for y in range(height_dots)`. -/
def decodeRows (data : List Nat) (widthPixels wb : Nat) (ys : List Nat) (s : Nat × PxMap) :
    Nat × PxMap :=
  ys.foldl (fun s yr => writeRow data yr widthPixels (List.range wb) s.1 s.2) s

/-- The `_decode_raster_image` routine (GS `v 0` raster images, row-major):
`width_pixels = width_bytes * 8`, fresh all-white image, filled row by row. -/
def decodeRasterImage (wb h : Nat) (data : List Nat) : PxMap :=
  (decodeRows data (wb * 8) wb (List.range h) (0, fun _ _ => false)).2

theorem writeRowByte_frame (y xByte byte wp : Nat) (bits : List Nat) (px : PxMap)
    (a b : Nat) (h : b ≠ y ∨ a < xByte * 8 ∨ xByte * 8 + 8 ≤ a) :
    writeRowByte y xByte byte wp bits px a b = px a b := by
  induction bits generalizing px with
  | nil => rfl
  | cons bit rest ih =>
    simp only [writeRowByte]
    split
    · rfl
    · rw [ih]
      simp only [setPixel]
      rw [if_neg]
      rintro ⟨rfl, rfl⟩
      rcases h with h | h | h
      · exact h rfl
      · omega
      · omega

theorem writeRowByte_val (y xByte byte wp : Nat) (bits : List Nat)
    (hbits : ∀ bit ∈ bits, bit < 8) (px : PxMap) (i : Nat) (hi : i < 8)
    (hw : xByte * 8 + 8 ≤ wp) :
    writeRowByte y xByte byte wp bits px (xByte * 8 + i) y =
      if (7 - i) ∈ bits then byte.testBit (7 - i) else px (xByte * 8 + i) y := by
  induction bits generalizing px with
  | nil => simp [writeRowByte]
  | cons bit rest ih =>
    have hbit : bit < 8 := hbits bit (List.mem_cons_self bit rest)
    simp only [writeRowByte]
    rw [if_neg (by omega)]
    rw [ih (fun b hb => hbits b (List.mem_cons_of_mem bit hb))]
    by_cases hmem : (7 - i) ∈ rest
    · rw [if_pos hmem, if_pos (List.mem_cons_of_mem bit hmem)]
    · rw [if_neg hmem]
      by_cases heq : i = 7 - bit
      · have h7 : 7 - i = bit := by omega
        have hmem2 : (7 - i) ∈ bit :: rest := by
          rw [h7]; exact List.mem_cons_self bit rest
        rw [if_pos hmem2, h7]
        simp only [setPixel]
        rw [if_pos ⟨by omega, trivial⟩]
      · have h7 : 7 - i ≠ bit := by omega
        have hmem2 : (7 - i) ∉ bit :: rest := by
          intro hc
          rcases List.mem_cons.mp hc with h | h
          · exact h7 h
          · exact hmem h
        rw [if_neg hmem2]
        simp only [setPixel]
        rw [if_neg]
        rintro ⟨ha, -⟩
        omega

theorem writeRowByte_range (y xByte byte wp : Nat) (px : PxMap) (i : Nat) (hi : i < 8)
    (hw : xByte * 8 + 8 ≤ wp) :
    writeRowByte y xByte byte wp (List.range 8) px (xByte * 8 + i) y =
      byte.testBit (7 - i) := by
  rw [writeRowByte_val y xByte byte wp (List.range 8)
    (fun b hb => List.mem_range.mp hb) px i hi hw]
  rw [if_pos (List.mem_range.mpr (by omega))]

theorem writeRow_spec (data : List Nat) (y wp : Nat) (k : Nat) :
    ∀ (j idx : Nat) (px : PxMap), idx + k ≤ data.length → (j + k) * 8 ≤ wp →
    (writeRow data y wp (List.range' j k) idx px).1 = idx + k ∧
    ∀ a b,
      (writeRow data y wp (List.range' j k) idx px).2 a b =
        if b = y ∧ j * 8 ≤ a ∧ a < (j + k) * 8 then
          (data.getD (idx + (a / 8 - j)) 0).testBit (7 - a % 8)
        else px a b := by
  induction k with
  | zero =>
    intro j idx px _ _
    refine ⟨by simp [writeRow, List.range'], ?_⟩
    intro a b
    rw [if_neg (by omega)]
    simp [writeRow, List.range']
  | succ k ih =>
    intro j idx px hlen hw
    have hcons : List.range' j (k + 1) = j :: List.range' (j + 1) k := by
      simp [List.range'_succ]
    rw [hcons]
    have hidx : ¬ data.length ≤ idx := by omega
    simp only [writeRow, hidx, if_false]
    have hlen' : (idx + 1) + k ≤ data.length := by omega
    have hw' : (j + 1 + k) * 8 ≤ wp := by
      have : j + 1 + k = j + (k + 1) := by omega
      rw [this]; exact hw
    obtain ⟨h1, h2⟩ := ih (j + 1) (idx + 1)
      (writeRowByte y j (data.getD idx 0) wp (List.range 8) px) hlen' hw'
    refine ⟨by rw [h1]; omega, ?_⟩
    intro a b
    rw [h2 a b]
    by_cases hin : b = y ∧ (j + 1) * 8 ≤ a ∧ a < (j + 1 + k) * 8
    · rw [if_pos hin, if_pos (by omega)]
      have : idx + 1 + (a / 8 - (j + 1)) = idx + (a / 8 - j) := by omega
      rw [this]
    · rw [if_neg hin]
      by_cases hcol : b = y ∧ j * 8 ≤ a ∧ a < (j + 1) * 8
      · obtain ⟨hb, ha1, ha2⟩ := hcol
        subst hb
        have haeq : a = j * 8 + a % 8 := by omega
        have hwj : j * 8 + 8 ≤ wp := by omega
        rw [if_pos (by omega)]
        conv_lhs => rw [haeq]
        rw [writeRowByte_range b j (data.getD idx 0) wp px (a % 8) (by omega) hwj]
        have : idx + (a / 8 - j) = idx := by omega
        rw [this]
      · rw [if_neg (by omega)]
        apply writeRowByte_frame
        by_cases hb : b = y
        · subst hb; right; omega
        · exact Or.inl hb

theorem decodeRows_spec (data : List Nat) (wp wb : Nat) (rows : Nat) :
    ∀ (y0 idx : Nat) (px : PxMap), idx + rows * wb ≤ data.length → wb * 8 ≤ wp →
    (decodeRows data wp wb (List.range' y0 rows) (idx, px)).1 = idx + rows * wb ∧
    ∀ a b,
      (decodeRows data wp wb (List.range' y0 rows) (idx, px)).2 a b =
        if y0 ≤ b ∧ b < y0 + rows ∧ a < wb * 8 then
          (data.getD (idx + (b - y0) * wb + a / 8) 0).testBit (7 - a % 8)
        else px a b := by
  induction rows with
  | zero =>
    intro y0 idx px _ _
    refine ⟨by simp [decodeRows, List.range'], ?_⟩
    intro a b
    rw [if_neg (by omega)]
    simp [decodeRows, List.range']
  | succ rows ih =>
    intro y0 idx px hlen hw
    have hcons : List.range' y0 (rows + 1) = y0 :: List.range' (y0 + 1) rows := by
      simp [List.range'_succ]
    rw [hcons]
    have hmul : (rows + 1) * wb = rows * wb + wb := Nat.succ_mul rows wb
    have hclen : idx + wb ≤ data.length := by omega
    have hch : (0 + wb) * 8 ≤ wp := by simpa using hw
    have hrange : List.range wb = List.range' 0 wb := List.range_eq_range' wb
    obtain ⟨w1, w2⟩ := writeRow_spec data y0 wp wb 0 idx px hclen hch
    have hfold : decodeRows data wp wb (y0 :: List.range' (y0 + 1) rows) (idx, px) =
        decodeRows data wp wb (List.range' (y0 + 1) rows)
          (writeRow data y0 wp (List.range wb) idx px) := by
      simp [decodeRows]
    rw [hfold]
    have hpair : writeRow data y0 wp (List.range wb) idx px =
        ((writeRow data y0 wp (List.range wb) idx px).1,
         (writeRow data y0 wp (List.range wb) idx px).2) := rfl
    rw [hpair, hrange, w1]
    obtain ⟨h1, h2⟩ := ih (y0 + 1) (idx + wb)
      ((writeRow data y0 wp (List.range' 0 wb) idx px).2) (by omega) hw
    refine ⟨by rw [h1]; omega, ?_⟩
    intro a b
    rw [h2 a b]
    by_cases hin : y0 + 1 ≤ b ∧ b < y0 + 1 + rows ∧ a < wb * 8
    · rw [if_pos hin, if_pos (by omega)]
      have hsub : b - y0 = (b - (y0 + 1)) + 1 := by omega
      have : idx + (b - y0) * wb + a / 8 = idx + wb + (b - (y0 + 1)) * wb + a / 8 := by
        rw [hsub, Nat.succ_mul]; ring
      rw [this]
    · rw [if_neg hin]
      rw [w2 a b]
      by_cases hrow : b = y0 ∧ 0 * 8 ≤ a ∧ a < (0 + wb) * 8
      · obtain ⟨hb, -, ha⟩ := hrow
        subst hb
        rw [if_pos (show b = b ∧ 0 * 8 ≤ a ∧ a < (0 + wb) * 8 from ⟨rfl, by omega, ha⟩),
          if_pos (show b ≤ b ∧ b < b + (rows + 1) ∧ a < wb * 8 from
            ⟨le_refl b, by omega, by omega⟩)]
        have : idx + (b - b) * wb + a / 8 = idx + (a / 8 - 0) := by
          rw [Nat.sub_self]; simp
        rw [this]
      · rw [if_neg hrow, if_neg (by omega)]

/-- Claim C4 core: with a full data buffer of `wb * h` bytes, the raster
decoder paints pixel `(xb*8 + (7-i), y)` black exactly when bit `i` of
byte `y*wb + xb` is set, and paints nothing outside the
`(wb*8) × h` bitmap. -/
theorem C4_raster_decoder (wb h : Nat) (data : List Nat) (hlen : data.length = wb * h) :
    (∀ y xb i, y < h → xb < wb → i < 8 →
      decodeRasterImage wb h data (xb * 8 + (7 - i)) y =
        (data.getD (y * wb + xb) 0).testBit i) ∧
    (∀ a b, wb * 8 ≤ a ∨ h ≤ b → decodeRasterImage wb h data a b = false) := by
  have hbase : List.range h = List.range' 0 h := List.range_eq_range' h
  obtain ⟨-, h2⟩ := decodeRows_spec data (wb * 8) wb h 0 0 (fun _ _ => false)
    (by rw [hlen, Nat.mul_comm wb h]; omega) (le_refl _)
  constructor
  · intro y xb i hy hxb hi
    have hx : xb * 8 + (7 - i) < wb * 8 := by
      calc xb * 8 + (7 - i) < (xb + 1) * 8 := by omega
        _ ≤ wb * 8 := Nat.mul_le_mul_right 8 (by omega)
    unfold decodeRasterImage
    rw [hbase, h2 (xb * 8 + (7 - i)) y, if_pos ⟨by omega, by omega, hx⟩]
    have hd : (xb * 8 + (7 - i)) / 8 = xb := by omega
    have hm : 7 - (xb * 8 + (7 - i)) % 8 = i := by omega
    rw [hd, hm]
    have : 0 + (y - 0) * wb + xb = y * wb + xb := by simp
    rw [this]
  · intro a b hab
    unfold decodeRasterImage
    rw [hbase, h2 a b, if_neg (by omega)]

/-- Witness for C4 at a concrete raster: 1 byte wide, 2 rows,
data bytes `[0xAA, 0x0F]`. -/
theorem C4_raster_decoder_witness :
    decodeRasterImage 1 2 [170, 15] 5 1 = (15 : Nat).testBit 2 := by
  have h := (C4_raster_decoder 1 2 [170, 15] rfl).1 1 0 2 (by decide) (by decide) (by decide)
  simpa using h

/-! ## Parser data model -/

/-- Parameter values stored in a command parameter map (`params` dict). -/
inductive PVal where
  | nat (n : Nat)
  | bool (b : Bool)
  | str (s : String)
  | img (w h : Nat) (px : List (List Bool))
deriving DecidableEq, Repr

/-- A command parameter map, in the insertion order the Python code uses. -/
abbrev Params := List (String × PVal)

/-- The decoded bitmap materialized as its list of pixel rows
(row `y` first, `true` = black). -/
def pixelRows (w h : Nat) (px : PxMap) : List (List Bool) :=
  (List.range h).map (fun y => (List.range w).map (fun x => px x y))

/-- Modelled from the spec: the base64 image payload the decoders attach
to image commands.  The payload is produced by an external collaborator —
the image library encodes the decoded bitmap into a portable container
(PNG) which is then base64-armored; that encoding is deterministic and
lossless, so two payloads are equal exactly when the bitmaps' dimensions
and pixels are equal.  The payload is therefore represented canonically
by the dimensions and the pixel matrix.  (The decode-failure fallback,
reachable only through an external-library exception, is not modelled:
the pure bit-unpacking itself cannot raise.) -/
def mkBase64 (w h : Nat) (px : PxMap) : PVal :=
  .img w h (pixelRows w h px)

/-- Embeds Python `params.get(key)`. -/
def getP (p : Params) (k : String) : Option PVal :=
  p.lookup k

/-- Embeds Python `params[key]` at the call sites that require a numeric
parameter known to be present. -/
def paramNat (c : Params) (k : String) : Nat :=
  match getP c k with
  | some (.nat n) => n
  | _ => 0

/-- A `ParsedCommand`, extended with the byte span `[start, stop)` it was
decoded from (implicit in the Python cursor movements). -/
structure Command where
  name : String
  escposBytes : List Nat
  params : Params
  span : Nat × Nat
deriving DecidableEq, Repr

/-- One tokenizer outcome at a cursor position: an emitted command or a
skipped byte range (positions consumed without emitting a command). -/
inductive Event where
  | cmd (c : Command)
  | skip (start len : Nat)
deriving DecidableEq, Repr

/-- Warnings accumulated by the parser (`self.warnings`), kept structured
instead of formatted strings. -/
inductive Warning where
  | unknownByte (b pos : Nat)
  | unknownEsc (b pos : Nat)
  | unknownGsSub (b pos : Nat)
  | unknownGs (b pos : Nat)
deriving DecidableEq, Repr

/-- Result of handling one byte position in the main parse loop. -/
structure StepOut where
  events : List Event
  warns : List Warning
  adv : Nat
deriving DecidableEq, Repr

/-! Constants from `escpos_constants.py`. -/

def ESC : Nat := 0x1B
def GS : Nat := 0x1D
def LF : Nat := 0x0A
def CR : Nat := 0x0D
def ESC_INIT : Nat := 0x40
def ESC_BOLD : Nat := 0x45
def ESC_UNDERLINE : Nat := 0x2D
def ESC_ALIGN : Nat := 0x61
def ESC_PRINT_MODE : Nat := 0x21
def GS_CUT : Nat := 0x56
def GS_CHAR_SIZE : Nat := 0x21
def ASCII_PRINTABLE_START : Nat := 0x20
def ASCII_PRINTABLE_END : Nat := 0x7E
def MAX_INPUT_SIZE : Nat := 1000000

/-- Modelled from the spec: the ESC `*` band-image opcode.  The constant
`ESC_BIT_IMAGE` is imported by the verifier but its definition is not in
the constants module under `src`; the spec and the code comments name the
command `ESC *`, whose second byte is the ASCII star, `0x2A`. -/
def ESC_BIT_IMAGE : Nat := 0x2A

/-- Modelled from the spec: the GS `v` raster-image opcode.  The constant
`GS_RASTER_IMAGE` is imported by the verifier but its definition is not in
the constants module under `src`; the spec and the code comments name the
command `GS v 0`, whose second byte is the ASCII letter v, `0x76`. -/
def GS_RASTER_IMAGE : Nat := 0x76

/-- Embeds `ALIGN_VALUE_TO_NAME.get(value, 'left')`. -/
def alignValueToName (v : Nat) : String :=
  if v = 0 then "left"
  else if v = 1 then "center"
  else if v = 2 then "right"
  else "left"

/-- Embeds `CUT_VALUE_TO_MODE.get(mode, 'FULL')` (numeric and ASCII-digit
aliases). -/
def cutValueToMode (v : Nat) : String :=
  if v = 0 then "FULL"
  else if v = 0x30 then "FULL"
  else if v = 1 then "PART"
  else if v = 0x31 then "PART"
  else "FULL"

/-- The ESC `*` mode table from `_parse_esc_sequence`:
bytes-per-column and per-stripe dot height, with the silent
`(1, 8)` default for unrecognized modes. -/
def modeTable (mode : Nat) : Nat × Nat :=
  if mode = 0 ∨ mode = 1 then (1, 8)
  else if mode = 2 ∨ mode = 3 then (2, 16)
  else if mode = 32 ∨ mode = 33 then (3, 24)
  else (1, 8)

/-! ## Tokenizer / dispatcher -/

/-- A byte in the printable ASCII range `[0x20, 0x7E]`. -/
def printableByte (b : Nat) : Bool :=
  decide (ASCII_PRINTABLE_START ≤ b) && decide (b ≤ ASCII_PRINTABLE_END)

/-- The maximal run of printable bytes starting at `pos` (`_parse_text`
while loop). -/
def textRun (data : List Nat) (pos : Nat) : List Nat :=
  (data.drop pos).takeWhile printableByte

/-- Builds a `Command` value. -/
def mkCmd (name : String) (bytes : List Nat) (params : Params) (start stop : Nat) : Command :=
  ⟨name, bytes, params, (start, stop)⟩

/-- Embeds `_parse_text`: consume a maximal printable run as one `text`
command.  All bytes in the run are plain ASCII, so the
`decode('ascii', errors='replace')` is the identity on characters. -/
def parseText (data : List Nat) (pos : Nat) : StepOut :=
  let bytes := textRun data pos
  ⟨[.cmd (mkCmd "text" bytes [("text", .str (String.mk (bytes.map Char.ofNat)))]
    pos (pos + bytes.length))], [], bytes.length⟩

/-- The ESC `@` branch of `_parse_esc_sequence`: initialize. -/
def escInit (pos : Nat) : StepOut :=
  ⟨[.cmd (mkCmd "initialize" [ESC, ESC_INIT] [] pos (pos + 2))], [], 2⟩

/-- The ESC `E` branch of `_parse_esc_sequence`: bold on/off. -/
def escBold (data : List Nat) (pos : Nat) : StepOut :=
  if data.length ≤ pos + 2 then ⟨[.skip pos 2], [], 2⟩
  else
    let value := data.getD (pos + 2) 0
    ⟨[.cmd (mkCmd "bold" [ESC, ESC_BOLD, value]
      [("enabled", .bool (value != 0))] pos (pos + 3))], [], 3⟩

/-- The ESC `-` branch of `_parse_esc_sequence`: underline mode. -/
def escUnderline (data : List Nat) (pos : Nat) : StepOut :=
  if data.length ≤ pos + 2 then ⟨[.skip pos 2], [], 2⟩
  else
    let value := data.getD (pos + 2) 0
    ⟨[.cmd (mkCmd "underline" [ESC, ESC_UNDERLINE, value]
      [("mode", .nat value)] pos (pos + 3))], [], 3⟩

/-- The ESC `a` branch of `_parse_esc_sequence`: alignment. -/
def escAlign (data : List Nat) (pos : Nat) : StepOut :=
  if data.length ≤ pos + 2 then ⟨[.skip pos 2], [], 2⟩
  else
    let value := data.getD (pos + 2) 0
    ⟨[.cmd (mkCmd "align" [ESC, ESC_ALIGN, value]
      [("align", .str (alignValueToName value))] pos (pos + 3))], [], 3⟩

/-- The ESC `*` branch of `_parse_esc_sequence`: band bit image. -/
def escBitImage (data : List Nat) (pos : Nat) : StepOut :=
  if data.length ≤ pos + 4 then ⟨[.skip pos 2], [], 2⟩
  else
    let mode := data.getD (pos + 2) 0
    let nL := data.getD (pos + 3) 0
    let nH := data.getD (pos + 4) 0
    let widthDots := nL + nH * 256
    let bpc := (modeTable mode).1
    let heightDots := (modeTable mode).2
    let totalSize := 5 + widthDots * bpc
    if pos + totalSize ≤ data.length then
      let imageData := (data.drop (pos + 5)).take (widthDots * bpc)
      ⟨[.cmd (mkCmd "bit_image" ((data.drop pos).take totalSize)
        [("width", .nat widthDots), ("height", .nat heightDots),
         ("mode", .nat mode), ("type", .str "bit_image"),
         ("base64", mkBase64 widthDots heightDots
           (decodeBitImage widthDots heightDots bpc imageData))]
        pos (pos + totalSize))], [], totalSize⟩
    else ⟨[.skip pos 2], [], 2⟩

/-- The ESC `!` branch of `_parse_esc_sequence`: print mode bitmask. -/
def escPrintMode (data : List Nat) (pos : Nat) : StepOut :=
  if data.length ≤ pos + 2 then ⟨[.skip pos 2], [], 2⟩
  else
    let value := data.getD (pos + 2) 0
    let bold := value.testBit 3
    let dh := value.testBit 4
    let dw := value.testBit 5
    let size := if dh && dw then "2x" else if dw then "2w"
      else if dh then "2h" else "normal"
    ⟨[.cmd (mkCmd "print_mode" [ESC, ESC_PRINT_MODE, value]
      [("mode", .nat value), ("bold", .bool bold), ("size", .str size)]
      pos (pos + 3))], [], 3⟩

/-- Embeds `_parse_esc_sequence`: dispatch on the byte after ESC.
Returns the emitted events, warnings and the cursor advance. -/
def parseEsc (data : List Nat) (pos : Nat) : StepOut :=
  if data.length ≤ pos + 1 then ⟨[.skip pos 1], [], 1⟩
  else
    let command := data.getD (pos + 1) 0
    if command = ESC_INIT then escInit pos
    else if command = ESC_BOLD then escBold data pos
    else if command = ESC_UNDERLINE then escUnderline data pos
    else if command = ESC_ALIGN then escAlign data pos
    else if command = ESC_BIT_IMAGE then escBitImage data pos
    else if command = ESC_PRINT_MODE then escPrintMode data pos
    else ⟨[.skip pos 2], [.unknownEsc command pos], 2⟩

/-- The GS `V` branch of `_parse_gs_sequence`: paper cut. -/
def gsCut (data : List Nat) (pos : Nat) : StepOut :=
  if data.length ≤ pos + 2 then ⟨[.skip pos 2], [], 2⟩
  else
    let mode := data.getD (pos + 2) 0
    ⟨[.cmd (mkCmd "cut" [GS, GS_CUT, mode]
      [("mode", .str (cutValueToMode mode))] pos (pos + 3))], [], 3⟩

/-- The GS `v` branch of `_parse_gs_sequence`: raster image (GS v 0). -/
def gsRasterImage (data : List Nat) (pos : Nat) : StepOut :=
  if data.length ≤ pos + 7 then ⟨[.skip pos 2], [], 2⟩
  else
    let subCommand := data.getD (pos + 2) 0
    if subCommand = 0x30 ∨ subCommand = 0x00 then
      let mode := data.getD (pos + 3) 0
      let xL := data.getD (pos + 4) 0
      let xH := data.getD (pos + 5) 0
      let yL := data.getD (pos + 6) 0
      let yH := data.getD (pos + 7) 0
      let widthBytes := xL + xH * 256
      let heightDots := yL + yH * 256
      let totalSize := 8 + widthBytes * heightDots
      if pos + totalSize ≤ data.length then
        let imageData := (data.drop (pos + 8)).take (widthBytes * heightDots)
        ⟨[.cmd (mkCmd "raster_image" ((data.drop pos).take totalSize)
          [("width_bytes", .nat widthBytes),
           ("width_pixels", .nat (widthBytes * 8)), ("height", .nat heightDots),
           ("mode", .nat mode), ("type", .str "raster_image"),
           ("base64", mkBase64 (widthBytes * 8) heightDots
             (decodeRasterImage widthBytes heightDots imageData))]
          pos (pos + totalSize))], [], totalSize⟩
      else ⟨[.skip pos 2], [], 2⟩
    else
      ⟨[.skip pos 3], [.unknownGsSub subCommand pos], 3⟩

/-- The GS `!` branch of `_parse_gs_sequence`: character size. -/
def gsCharSize (data : List Nat) (pos : Nat) : StepOut :=
  if data.length ≤ pos + 2 then ⟨[.skip pos 2], [], 2⟩
  else
    let value := data.getD (pos + 2) 0
    let width := value % 8 + 1
    let height := value / 16 % 8 + 1
    ⟨[.cmd (mkCmd "size" [GS, GS_CHAR_SIZE, value]
      [("width", .nat width), ("height", .nat height)] pos (pos + 3))], [], 3⟩

/-- Embeds `_parse_gs_sequence`: dispatch on the byte after GS. -/
def parseGs (data : List Nat) (pos : Nat) : StepOut :=
  if data.length ≤ pos + 1 then ⟨[.skip pos 1], [], 1⟩
  else
    let command := data.getD (pos + 1) 0
    if command = GS_CUT then gsCut data pos
    else if command = GS_RASTER_IMAGE then gsRasterImage data pos
    else if command = GS_CHAR_SIZE then gsCharSize data pos
    else ⟨[.skip pos 2], [.unknownGs command pos], 2⟩

/-- One iteration of the `parse_escpos` main loop, dispatching on the byte
at the cursor. -/
def parseStep (data : List Nat) (pos : Nat) : StepOut :=
  let b := data.getD pos 0
  if b = ESC then parseEsc data pos
  else if b = GS then parseGs data pos
  else if b = LF then
    ⟨[.cmd (mkCmd "line_feed" [LF] [] pos (pos + 1))], [], 1⟩
  else if b = CR then ⟨[.skip pos 1], [], 1⟩
  else if printableByte b then parseText data pos
  else ⟨[.skip pos 1], [.unknownByte b pos], 1⟩

/-- The `while self.position < len(data)` main loop.  The fuel argument
bounds the iteration count; `data.length` iterations always suffice since
every step advances the cursor by at least one. -/
def parseLoop (data : List Nat) : Nat → Nat → List Event × List Warning
  | 0, _ => ([], [])
  | fuel + 1, pos =>
    if pos < data.length then
      let s := parseStep data pos
      let r := parseLoop data fuel (pos + s.adv)
      (s.events ++ r.1, s.warns ++ r.2)
    else ([], [])

/-- Commands carried by an event list, in order. -/
def eventsCommands (es : List Event) : List Command :=
  es.filterMap (fun e => match e with | .cmd c => some c | .skip _ _ => none)

/-- The full tokenizer pass over a buffer: events in cursor order. -/
def rawEvents (data : List Nat) : List Event :=
  (parseLoop data data.length 0).1

/-- The warnings accumulated by a full tokenizer pass. -/
def rawWarnings (data : List Nat) : List Warning :=
  (parseLoop data data.length 0).2

/-! ## Stripe merger -/

/-- The look-ahead loop of `_merge_bit_image_stripes`: starting after a
`bit_image` command with width parameter `wv` and mode parameter `mv`,
skip over `line_feed` commands and collect matching `bit_image` stripes;
stop at the first other command.  Returns the collected stripes and the
commands remaining after the scanned region. -/
def collectRun (wv mv : Option PVal) : List Command → List Command × List Command
  | [] => ([], [])
  | c :: rest =>
    if c.name = "line_feed" then collectRun wv mv rest
    else if c.name = "bit_image" ∧ getP c.params "width" = wv ∧ getP c.params "mode" = mv then
      let pr := collectRun wv mv rest
      (c :: pr.1, pr.2)
    else ([], c :: rest)

/-- The ESC `*` mode table as re-stated inside `_combine_bit_image_stripes`
(same mapping as `modeTable`, tested in a different order). -/
def combineModeBpc (mode : Nat) : Nat :=
  if mode = 32 ∨ mode = 33 then 3
  else if mode = 2 ∨ mode = 3 then 2
  else if mode = 0 ∨ mode = 1 then 1
  else 1

/-- The merged raw buffer built by `_combine_bit_image_stripes`: for each
column, concatenate that column's byte slice from each stripe's raw data,
stripe 0 first. -/
def combineData (width bpcps : Nat) (sds : List (List Nat)) : List Nat :=
  (List.range width).foldl (fun acc col =>
    sds.foldl (fun a sd => a ++ ((sd.drop (col * bpcps)).take bpcps)) acc) []

/-- Embeds `_combine_bit_image_stripes` on the nonempty stripe list
`s0 :: rest`: one combined `bit_image` command.  The byte span of the
merged command is taken to run from the first stripe's start to the last
stripe's stop. -/
def combineStripes (s0 : Command) (rest : List Command) : Command :=
  let stripes := s0 :: rest
  let widthDots := paramNat s0.params "width"
  let heightPerStripe := paramNat s0.params "height"
  let mode := paramNat s0.params "mode"
  let bpcps := combineModeBpc mode
  let bytesPerColumn := bpcps * stripes.length
  let totalHeight := heightPerStripe * stripes.length
  let sds := stripes.map (fun s => s.escposBytes.drop 5)
  let combinedData := combineData widthDots bpcps sds
  mkCmd "bit_image" (stripes.foldl (fun a s => a ++ s.escposBytes) [])
    [("width", .nat widthDots), ("height", .nat totalHeight),
     ("mode", .nat mode), ("type", .str "bit_image_combined"),
     ("stripe_count", .nat stripes.length),
     ("base64", mkBase64 widthDots totalHeight
       (decodeBitImage widthDots totalHeight bytesPerColumn combinedData))]
    s0.span.1 (rest.getLastD s0).span.2

/-- The scan loop of `_merge_bit_image_stripes`, with fuel (the list
length always suffices; every iteration consumes at least one command). -/
def mergeLoopF : Nat → List Command → List Command
  | 0, l => l
  | _ + 1, [] => []
  | fuel + 1, c :: rest =>
    if c.name = "bit_image" then
      let pr := collectRun (getP c.params "width") (getP c.params "mode") rest
      if pr.1.isEmpty then c :: mergeLoopF fuel rest
      else combineStripes c pr.1 :: mergeLoopF fuel pr.2
    else c :: mergeLoopF fuel rest

/-- Embeds `_merge_bit_image_stripes` over a command list. -/
def mergeStripes (cmds : List Command) : List Command :=
  mergeLoopF cmds.length cmds

/-- Embeds `parse_escpos` after its input validation: tokenize, then run
the stripe-merge post-pass, returning commands and warnings. -/
def parseEscpos (data : List Nat) : List Command × List Warning :=
  (mergeStripes (eventsCommands (rawEvents data)), rawWarnings data)

/-- A dynamically typed parse input: a bytes object or a value of some
other Python type. -/
inductive PyInput where
  | bytes (data : List Nat)
  | other (tyName : String)
deriving DecidableEq, Repr

/-- Fatal parse errors raised before parsing begins. -/
inductive ParseErr where
  | typeError (tyName : String)
  | valueError
deriving DecidableEq, Repr

/-- Embeds `parse_escpos` including its input validation: a type error for
non-bytes input, a value error for over-long input, otherwise the parse
result. -/
def parseEscposChecked : PyInput → Except ParseErr (List Command × List Warning)
  | .other t => .error (.typeError t)
  | .bytes data =>
    if MAX_INPUT_SIZE < data.length then .error .valueError
    else .ok (parseEscpos data)

/-! ## Tokenizer coverage machinery -/

/-- The byte span of an event. -/
def eventSpan : Event → Nat × Nat
  | .cmd c => c.span
  | .skip p l => (p, p + l)

/-- Checks that a span list tiles `[lo, hi)`: spans are consecutive,
nonempty and gap-free, starting at `lo` and ending at `hi`. -/
def tilesB : Nat → Nat → List (Nat × Nat) → Bool
  | lo, hi, [] => lo == hi
  | lo, hi, sp :: rest => sp.1 == lo && decide (sp.1 < sp.2) && tilesB sp.2 hi rest

/-- Checks that the spans of a command list are strictly increasing and
disjoint, all lying at or after `lo`. -/
def spanChainB : Nat → List Command → Bool
  | _, [] => true
  | lo, c :: rest =>
    decide (lo ≤ c.span.1) && decide (c.span.1 < c.span.2) && spanChainB c.span.2 rest

theorem spanChainB_nil (lo : Nat) : spanChainB lo [] = true := rfl

theorem spanChainB_cons (lo : Nat) (c : Command) (rest : List Command) :
    spanChainB lo (c :: rest) = true ↔
      lo ≤ c.span.1 ∧ c.span.1 < c.span.2 ∧ spanChainB c.span.2 rest = true := by
  simp [spanChainB, and_assoc]

theorem tilesB_nil (lo hi : Nat) : tilesB lo hi [] = true ↔ lo = hi := by
  simp [tilesB]

theorem tilesB_cons (lo hi : Nat) (sp : Nat × Nat) (rest : List (Nat × Nat)) :
    tilesB lo hi (sp :: rest) = true ↔
      sp.1 = lo ∧ sp.1 < sp.2 ∧ tilesB sp.2 hi rest = true := by
  simp [tilesB, and_assoc]

theorem spanChainB_mono (lo lo' : Nat) (l : List Command) (h : lo ≤ lo')
    (hc : spanChainB lo' l = true) : spanChainB lo l = true := by
  cases l with
  | nil => rfl
  | cons c rest =>
    rw [spanChainB_cons] at hc ⊢
    exact ⟨by omega, hc.2.1, hc.2.2⟩

theorem eventsCommands_nil : eventsCommands [] = [] := rfl

theorem eventsCommands_cons_cmd (c : Command) (rest : List Event) :
    eventsCommands (.cmd c :: rest) = c :: eventsCommands rest := rfl

theorem eventsCommands_cons_skip (p l : Nat) (rest : List Event) :
    eventsCommands (.skip p l :: rest) = eventsCommands rest := rfl

theorem tilesB_spanChain : ∀ (es : List Event) (lo hi : Nat),
    tilesB lo hi (es.map eventSpan) = true → spanChainB lo (eventsCommands es) = true := by
  intro es
  induction es with
  | nil => intro lo hi _; rfl
  | cons e rest ih =>
    intro lo hi h
    rw [List.map_cons, tilesB_cons] at h
    obtain ⟨h1, h2, h3⟩ := h
    cases e with
    | cmd c =>
      rw [eventsCommands_cons_cmd, spanChainB_cons]
      simp only [eventSpan] at h1 h2
      exact ⟨by omega, h2, ih _ _ h3⟩
    | skip p l =>
      rw [eventsCommands_cons_skip]
      simp only [eventSpan] at h1 h2
      exact spanChainB_mono lo (p + l) _ (by omega) (ih _ _ h3)

/-- Per-step contract of the tokenizer at an in-range cursor position:
exactly one event is emitted, it covers exactly the bytes consumed, the
cursor strictly advances and stays in range, and every skip event spans
one to three bytes. -/
def StepOk (data : List Nat) (pos : Nat) (s : StepOut) : Prop :=
  1 ≤ s.adv ∧ pos + s.adv ≤ data.length ∧
  (∃ e, s.events = [e] ∧ eventSpan e = (pos, pos + s.adv)) ∧
  (∀ p l, Event.skip p l ∈ s.events → 1 ≤ l ∧ l ≤ 3)

theorem parseText_ok (data : List Nat) (pos : Nat) (hpos : pos < data.length)
    (hp : printableByte (data.getD pos 0) = true) :
    StepOk data pos (parseText data pos) := by
  have hdrop : data.drop pos = data.getD pos 0 :: data.drop (pos + 1) := by
    rw [List.getD_eq_getElem data 0 hpos]
    exact List.drop_eq_getElem_cons hpos
  have hlen1 : 1 ≤ (textRun data pos).length := by
    unfold textRun
    rw [hdrop, List.takeWhile_cons_of_pos hp]
    simp
  have hlen2 : (textRun data pos).length ≤ data.length - pos := by
    calc (textRun data pos).length ≤ (data.drop pos).length :=
          (List.takeWhile_sublist _).length_le
      _ = data.length - pos := List.length_drop pos data
  refine ⟨hlen1, by simp only [parseText]; omega, ⟨_, rfl, rfl⟩, ?_⟩
  intro p l hm
  simp [parseText] at hm

theorem skip_ok (data : List Nat) (pos n : Nat) (h1 : 1 ≤ n) (h2 : n ≤ 3)
    (h3 : pos + n ≤ data.length) :
    StepOk data pos (⟨[.skip pos n], [], n⟩ : StepOut) := by
  refine ⟨h1, h3, ⟨_, rfl, rfl⟩, ?_⟩
  intro p l hm
  simp only [List.mem_singleton] at hm
  injection hm with hm1 hm2
  omega

theorem escInit_ok (data : List Nat) (pos : Nat) (h : pos + 2 ≤ data.length) :
    StepOk data pos (escInit pos) := by
  unfold escInit
  refine ⟨by dsimp only; omega, by dsimp only; omega, ⟨_, rfl, rfl⟩, ?_⟩
  intro p l hm
  simp at hm

theorem escBold_ok (data : List Nat) (pos : Nat) (h : pos + 1 < data.length) :
    StepOk data pos (escBold data pos) := by
  unfold escBold
  split_ifs with h2
  · exact skip_ok data pos 2 (by omega) (by omega) (by omega)
  · refine ⟨by dsimp only; omega, by dsimp only; omega, ⟨_, rfl, rfl⟩, ?_⟩
    intro p l hm
    simp at hm

theorem escUnderline_ok (data : List Nat) (pos : Nat) (h : pos + 1 < data.length) :
    StepOk data pos (escUnderline data pos) := by
  unfold escUnderline
  split_ifs with h2
  · exact skip_ok data pos 2 (by omega) (by omega) (by omega)
  · refine ⟨by dsimp only; omega, by dsimp only; omega, ⟨_, rfl, rfl⟩, ?_⟩
    intro p l hm
    simp at hm

theorem escAlign_ok (data : List Nat) (pos : Nat) (h : pos + 1 < data.length) :
    StepOk data pos (escAlign data pos) := by
  unfold escAlign
  split_ifs with h2
  · exact skip_ok data pos 2 (by omega) (by omega) (by omega)
  · refine ⟨by dsimp only; omega, by dsimp only; omega, ⟨_, rfl, rfl⟩, ?_⟩
    intro p l hm
    simp at hm

theorem escBitImage_ok (data : List Nat) (pos : Nat) (h : pos + 1 < data.length) :
    StepOk data pos (escBitImage data pos) := by
  unfold escBitImage
  dsimp only
  split_ifs with h2 h3
  · exact skip_ok data pos 2 (by omega) (by omega) (by omega)
  · refine ⟨by dsimp only; omega, by dsimp only; omega, ⟨_, rfl, rfl⟩, ?_⟩
    intro p l hm
    simp at hm
  · exact skip_ok data pos 2 (by omega) (by omega) (by omega)

theorem escPrintMode_ok (data : List Nat) (pos : Nat) (h : pos + 1 < data.length) :
    StepOk data pos (escPrintMode data pos) := by
  unfold escPrintMode
  split_ifs with h2
  · exact skip_ok data pos 2 (by omega) (by omega) (by omega)
  · refine ⟨by dsimp only; omega, by dsimp only; omega, ⟨_, rfl, rfl⟩, ?_⟩
    intro p l hm
    simp at hm

theorem parseEsc_ok (data : List Nat) (pos : Nat) (hpos : pos < data.length) :
    StepOk data pos (parseEsc data pos) := by
  unfold parseEsc
  dsimp only
  split_ifs with h1 h2 h3 h4 h5 h6 h7
  · exact skip_ok data pos 1 (by omega) (by omega) (by omega)
  · exact escInit_ok data pos (by omega)
  · exact escBold_ok data pos (by omega)
  · exact escUnderline_ok data pos (by omega)
  · exact escAlign_ok data pos (by omega)
  · exact escBitImage_ok data pos (by omega)
  · exact escPrintMode_ok data pos (by omega)
  · refine ⟨by dsimp only; omega, by dsimp only; omega, ⟨_, rfl, rfl⟩, ?_⟩
    intro p l hm
    simp only [List.mem_singleton] at hm
    injection hm with hm1 hm2
    omega

theorem gsCut_ok (data : List Nat) (pos : Nat) (h : pos + 1 < data.length) :
    StepOk data pos (gsCut data pos) := by
  unfold gsCut
  split_ifs with h2
  · exact skip_ok data pos 2 (by omega) (by omega) (by omega)
  · refine ⟨by dsimp only; omega, by dsimp only; omega, ⟨_, rfl, rfl⟩, ?_⟩
    intro p l hm
    simp at hm

theorem gsRasterImage_ok (data : List Nat) (pos : Nat) (h : pos + 1 < data.length) :
    StepOk data pos (gsRasterImage data pos) := by
  unfold gsRasterImage
  dsimp only
  split_ifs with h2 h3 h4
  · exact skip_ok data pos 2 (by omega) (by omega) (by omega)
  · refine ⟨by dsimp only; omega, by dsimp only; omega, ⟨_, rfl, rfl⟩, ?_⟩
    intro p l hm
    simp at hm
  · exact skip_ok data pos 2 (by omega) (by omega) (by omega)
  · exact skip_ok data pos 3 (by omega) (by omega) (by omega)

theorem gsCharSize_ok (data : List Nat) (pos : Nat) (h : pos + 1 < data.length) :
    StepOk data pos (gsCharSize data pos) := by
  unfold gsCharSize
  split_ifs with h2
  · exact skip_ok data pos 2 (by omega) (by omega) (by omega)
  · refine ⟨by dsimp only; omega, by dsimp only; omega, ⟨_, rfl, rfl⟩, ?_⟩
    intro p l hm
    simp at hm

theorem parseGs_ok (data : List Nat) (pos : Nat) (hpos : pos < data.length) :
    StepOk data pos (parseGs data pos) := by
  unfold parseGs
  dsimp only
  split_ifs with h1 h2 h3 h4
  · exact skip_ok data pos 1 (by omega) (by omega) (by omega)
  · exact gsCut_ok data pos (by omega)
  · exact gsRasterImage_ok data pos (by omega)
  · exact gsCharSize_ok data pos (by omega)
  · exact skip_ok data pos 2 (by omega) (by omega) (by omega)

theorem parseStep_ok (data : List Nat) (pos : Nat) (hpos : pos < data.length) :
    StepOk data pos (parseStep data pos) := by
  unfold parseStep
  dsimp only
  split_ifs with h1 h2 h3 h4 h5
  · exact parseEsc_ok data pos hpos
  · exact parseGs_ok data pos hpos
  · refine ⟨by dsimp only; omega, by dsimp only; omega, ⟨_, rfl, rfl⟩, ?_⟩
    intro p l hm
    simp at hm
  · exact skip_ok data pos 1 (by omega) (by omega) (by omega)
  · exact parseText_ok data pos hpos h5
  · exact skip_ok data pos 1 (by omega) (by omega) (by omega)

/-- The tokenizer loop tiles the rest of the buffer: the events emitted
from position `pos` cover `[pos, data.length)` exactly once, in order. -/
theorem parseLoop_tiles (data : List Nat) : ∀ (fuel pos : Nat),
    pos ≤ data.length → data.length - pos ≤ fuel →
    tilesB pos data.length ((parseLoop data fuel pos).1.map eventSpan) = true := by
  intro fuel
  induction fuel with
  | zero =>
    intro pos hle hf
    have : pos = data.length := by omega
    subst this
    simp [parseLoop, tilesB]
  | succ fuel ih =>
    intro pos hle hf
    by_cases hpos : pos < data.length
    · obtain ⟨hadv, hrange, ⟨e, hev, hsp⟩, -⟩ := parseStep_ok data pos hpos
      simp only [parseLoop, if_pos hpos, hev]
      rw [List.cons_append, List.nil_append, List.map_cons, tilesB_cons, hsp]
      refine ⟨rfl, by omega, ?_⟩
      exact ih (pos + (parseStep data pos).adv) (by omega) (by omega)
    · simp only [parseLoop, if_neg hpos]
      have : pos = data.length := by omega
      subst this
      simp [tilesB]

/-- Every skip event emitted by the tokenizer loop spans 1 to 3 bytes. -/
theorem parseLoop_skip_sizes (data : List Nat) : ∀ (fuel pos p l : Nat),
    Event.skip p l ∈ (parseLoop data fuel pos).1 → 1 ≤ l ∧ l ≤ 3 := by
  intro fuel
  induction fuel with
  | zero => intro pos p l hm; simp [parseLoop] at hm
  | succ fuel ih =>
    intro pos p l hm
    by_cases hpos : pos < data.length
    · simp only [parseLoop, if_pos hpos, List.mem_append] at hm
      rcases hm with hm | hm
      · exact (parseStep_ok data pos hpos).2.2.2 p l hm
      · exact ih _ p l hm
    · simp [parseLoop, if_neg hpos] at hm

/-- The tokenizer loop result does not depend on the fuel, once the fuel
covers the remaining buffer length: the loop terminates within
`data.length - pos` iterations because every step advances the cursor. -/
theorem parseLoop_fuel (data : List Nat) : ∀ (f1 f2 pos : Nat),
    data.length - pos ≤ f1 → data.length - pos ≤ f2 →
    parseLoop data f1 pos = parseLoop data f2 pos := by
  intro f1
  induction f1 with
  | zero =>
    intro f2 pos h1 h2
    have hpos : ¬ pos < data.length := by omega
    cases f2 with
    | zero => rfl
    | succ f2 => simp [parseLoop, if_neg hpos]
  | succ f1 ih =>
    intro f2 pos h1 h2
    by_cases hpos : pos < data.length
    · have hadv := (parseStep_ok data pos hpos).1
      cases f2 with
      | zero => omega
      | succ f2 =>
        simp only [parseLoop, if_pos hpos]
        rw [ih f2 (pos + (parseStep data pos).adv) (by omega) (by omega)]
    · cases f2 with
      | zero => simp [parseLoop, if_neg hpos]
      | succ f2 => simp [parseLoop, if_neg hpos]

/-! ## Stripe merger machinery -/

theorem collectRun_rest_length (wv mv : Option PVal) : ∀ (l : List Command),
    (collectRun wv mv l).2.length ≤ l.length := by
  intro l
  induction l with
  | nil => simp [collectRun]
  | cons c rest ih =>
    unfold collectRun
    split_ifs with h1 h2
    · exact Nat.le_trans ih (by simp)
    · simpa using Nat.le_trans ih (by simp)
    · simp

/-- `mergeLoopF` is fuel-insensitive once the fuel covers the list
length: every iteration consumes at least one command. -/
theorem mergeLoopF_fuel : ∀ (f1 f2 : Nat) (l : List Command),
    l.length ≤ f1 → l.length ≤ f2 → mergeLoopF f1 l = mergeLoopF f2 l := by
  intro f1
  induction f1 with
  | zero =>
    intro f2 l h1 h2
    have : l = [] := List.length_eq_zero.mp (by omega)
    subst this
    cases f2 <;> rfl
  | succ f1 ih =>
    intro f2 l h1 h2
    cases l with
    | nil => cases f2 <;> rfl
    | cons c rest =>
      cases f2 with
      | zero => simp at h2
      | succ f2 =>
        simp only [mergeLoopF]
        have hlen := collectRun_rest_length (getP c.params "width") (getP c.params "mode") rest
        simp only [List.length_cons] at h1 h2
        split_ifs with hb he
        · rw [ih f2 rest (by omega) (by omega)]
        · rw [ih f2 _ (by omega) (by omega)]
        · rw [ih f2 rest (by omega) (by omega)]

/-- One look-ahead scan of the stripe merger, described relationally:
from the command list, collect the matching `bit_image` stripes, skip
over `line_feed` commands, and stop at the first other command, which
starts the remainder. -/
inductive RunTail (wv mv : Option PVal) : List Command → List Command → List Command → Prop
  | nil : RunTail wv mv [] [] []
  | brk (c : Command) (l : List Command) :
      c.name ≠ "line_feed" →
      ¬ (c.name = "bit_image" ∧ getP c.params "width" = wv ∧ getP c.params "mode" = mv) →
      RunTail wv mv (c :: l) [] (c :: l)
  | lf (c : Command) (l stripes rest : List Command) :
      c.name = "line_feed" → RunTail wv mv l stripes rest →
      RunTail wv mv (c :: l) stripes rest
  | take (c : Command) (l stripes rest : List Command) :
      c.name = "bit_image" → getP c.params "width" = wv → getP c.params "mode" = mv →
      RunTail wv mv l stripes rest →
      RunTail wv mv (c :: l) (c :: stripes) rest

theorem collectRun_eq_of_runTail (wv mv : Option PVal) {l stripes rest : List Command}
    (h : RunTail wv mv l stripes rest) : collectRun wv mv l = (stripes, rest) := by
  induction h with
  | nil => rfl
  | brk c l h1 h2 =>
    unfold collectRun
    rw [if_neg h1, if_neg h2]
  | lf c l s r h1 _ ih =>
    unfold collectRun
    rw [if_pos h1, ih]
  | take c l s r h1 h2 h3 _ ih =>
    unfold collectRun
    rw [if_neg (by rw [h1]; decide), if_pos ⟨h1, h2, h3⟩, ih]

theorem runTail_members (wv mv : Option PVal) {l stripes rest : List Command}
    (h : RunTail wv mv l stripes rest) :
    ∀ c ∈ l, c ∈ stripes ∨ c.name = "line_feed" ∨ c ∈ rest := by
  induction h with
  | nil => intro c hc; simp at hc
  | brk c l h1 h2 =>
    intro d hd
    exact Or.inr (Or.inr hd)
  | lf c l s r h1 _ ih =>
    intro d hd
    rcases List.mem_cons.mp hd with rfl | hd
    · exact Or.inr (Or.inl h1)
    · exact ih d hd
  | take c l s r h1 h2 h3 _ ih =>
    intro d hd
    rcases List.mem_cons.mp hd with rfl | hd
    · exact Or.inl (List.mem_cons_self _ _)
    · rcases ih d hd with h | h | h
      · exact Or.inl (List.mem_cons_of_mem _ h)
      · exact Or.inr (Or.inl h)
      · exact Or.inr (Or.inr h)

theorem runTail_stripes (wv mv : Option PVal) {l stripes rest : List Command}
    (h : RunTail wv mv l stripes rest) :
    ∀ c ∈ stripes,
      c.name = "bit_image" ∧ getP c.params "width" = wv ∧ getP c.params "mode" = mv := by
  induction h with
  | nil => intro c hc; simp at hc
  | brk c l h1 h2 => intro d hd; simp at hd
  | lf c l s r h1 _ ih => exact ih
  | take c l s r h1 h2 h3 _ ih =>
    intro d hd
    rcases List.mem_cons.mp hd with rfl | hd
    · exact ⟨h1, h2, h3⟩
    · exact ih d hd

/-- A prefix free of `bit_image` commands passes through the merger
unchanged. -/
theorem mergeStripes_nonimage : ∀ (pre : List Command) (fuel : Nat) (l : List Command),
    (∀ c ∈ pre, c.name ≠ "bit_image") → (pre ++ l).length ≤ fuel →
    mergeLoopF fuel (pre ++ l) = pre ++ mergeLoopF l.length l := by
  intro pre
  induction pre with
  | nil =>
    intro fuel l _ hlen
    simp only [List.nil_append] at hlen ⊢
    exact mergeLoopF_fuel fuel l.length l hlen le_rfl
  | cons c pre ih =>
    intro fuel l hpre hlen
    simp only [List.cons_append, List.length_cons] at hlen
    obtain ⟨f, rfl⟩ : ∃ f, fuel = f + 1 := ⟨fuel - 1, by omega⟩
    have hstep : mergeLoopF (f + 1) ((c :: pre) ++ l) = c :: mergeLoopF f (pre ++ l) := by
      simp only [List.cons_append, mergeLoopF]
      rw [if_neg (hpre c (List.mem_cons_self c pre))]
      rfl
    rw [hstep, ih f l (fun d hd => hpre d (List.mem_cons_of_mem c hd)) (by omega)]
    rfl

/-- A `bit_image` command whose look-ahead finds at least one further
matching stripe is fused with them into one combined command; the
scanned-over region is dropped and scanning resumes at the remainder. -/
theorem mergeStripes_run (s0 : Command) (tail stripes rest : List Command)
    (h0 : s0.name = "bit_image")
    (hrt : RunTail (getP s0.params "width") (getP s0.params "mode") tail stripes rest)
    (hne : stripes ≠ []) :
    mergeStripes (s0 :: tail) = combineStripes s0 stripes :: mergeStripes rest := by
  unfold mergeStripes
  simp only [List.length_cons, mergeLoopF]
  rw [if_pos h0, collectRun_eq_of_runTail _ _ hrt]
  simp only [List.isEmpty_iff]
  rw [if_neg hne]
  have hrl : rest.length ≤ tail.length := by
    have := collectRun_rest_length (getP s0.params "width") (getP s0.params "mode") tail
    rw [collectRun_eq_of_runTail _ _ hrt] at this
    exact this
  rw [mergeLoopF_fuel tail.length rest.length rest hrl le_rfl]

/-- A `bit_image` command whose look-ahead finds no further matching
stripe is kept as-is, and scanning resumes right after it (skipped line
feeds are reprocessed, hence preserved). -/
theorem mergeStripes_single (s0 : Command) (tail rest : List Command)
    (h0 : s0.name = "bit_image")
    (hrt : RunTail (getP s0.params "width") (getP s0.params "mode") tail [] rest) :
    mergeStripes (s0 :: tail) = s0 :: mergeStripes tail := by
  unfold mergeStripes
  simp only [List.length_cons, mergeLoopF]
  rw [if_pos h0, collectRun_eq_of_runTail _ _ hrt]
  simp

/-- Spans survive the look-ahead scan: collected stripes stay within the
scanned region and the remainder starts after the last collected
stripe. -/
theorem collectRun_chain (wv mv : Option PVal) : ∀ (l : List Command) (d : Command),
    spanChainB d.span.2 l = true →
    spanChainB ((collectRun wv mv l).1.getLastD d).span.2 (collectRun wv mv l).2 = true ∧
    d.span.2 ≤ ((collectRun wv mv l).1.getLastD d).span.2 := by
  intro l
  induction l with
  | nil => intro d _; exact ⟨rfl, le_rfl⟩
  | cons c rest ih =>
    intro d hch
    rw [spanChainB_cons] at hch
    obtain ⟨hd1, hd2, hch⟩ := hch
    unfold collectRun
    split_ifs with h1 h2
    · obtain ⟨ih1, ih2⟩ := ih c hch
      cases hemp : (collectRun wv mv rest).1 with
      | nil =>
        rw [hemp] at ih1 ih2
        simp only [List.getLastD_nil] at ih1 ih2 ⊢
        exact ⟨spanChainB_mono _ _ _ (by omega) ih1, by omega⟩
      | cons a as =>
        rw [hemp] at ih1 ih2
        have hgl : (a :: as).getLastD d = (a :: as).getLastD c := by
          rw [List.getLastD_cons, List.getLastD_cons]
        rw [hgl]
        exact ⟨ih1, by omega⟩
    · obtain ⟨ih1, ih2⟩ := ih c hch
      simp only [List.getLastD_cons]
      exact ⟨ih1, by omega⟩
    · simp only [List.getLastD_nil]
      rw [spanChainB_cons]
      exact ⟨⟨by omega, hd2, hch⟩, le_rfl⟩

/-- The merge post-pass preserves strictly increasing, disjoint byte
spans. -/
theorem mergeLoopF_chain : ∀ (fuel : Nat) (l : List Command) (lo : Nat),
    spanChainB lo l = true → spanChainB lo (mergeLoopF fuel l) = true := by
  intro fuel
  induction fuel with
  | zero => intro l lo h; exact h
  | succ fuel ih =>
    intro l lo h
    cases l with
    | nil => exact h
    | cons c rest =>
      rw [spanChainB_cons] at h
      obtain ⟨h1, h2, h3⟩ := h
      simp only [mergeLoopF]
      split_ifs with hb he
      · rw [spanChainB_cons]
        exact ⟨h1, h2, ih rest c.span.2 h3⟩
      · obtain ⟨hc1, hc2⟩ := collectRun_chain (getP c.params "width") (getP c.params "mode") rest c h3
        rw [spanChainB_cons]
        refine ⟨?_, ?_, ?_⟩
        · exact h1
        · simp only [combineStripes, mkCmd]
          omega
        · simp only [combineStripes, mkCmd]
          exact ih _ _ hc1
      · rw [spanChainB_cons]
        exact ⟨h1, h2, ih rest c.span.2 h3⟩

/-! ## Claims C3 and C9 -/

/-- Claim C3, amended.  Before the stripe-merge post-pass the tokenizer
events — command spans and skip intervals of one to three bytes — tile
`[0, len(data))` exactly once and in order; the returned (post-merge)
command list still has strictly increasing, non-overlapping spans.  (The
original claim fails: skips are not all single-byte, and after merging,
the spans plus skips no longer cover the buffer, because line feeds
inside and after a fused run are dropped; see the counterexample.) -/
theorem C3_span_coverage (data : List Nat) :
    tilesB 0 data.length ((rawEvents data).map eventSpan) = true ∧
    (∀ p l, Event.skip p l ∈ rawEvents data → 1 ≤ l ∧ l ≤ 3) ∧
    spanChainB 0 (parseEscpos data).1 = true := by
  refine ⟨parseLoop_tiles data data.length 0 (by omega) (by omega), ?_, ?_⟩
  · intro p l hm
    exact parseLoop_skip_sizes data data.length 0 p l hm
  · unfold parseEscpos
    have h1 := parseLoop_tiles data data.length 0 (by omega) (by omega)
    have h2 := tilesB_spanChain (rawEvents data) 0 data.length h1
    exact mergeLoopF_chain _ _ 0 h2

/-- Witness for C3 on the buffer `[1B 40, 0D, FF]`: an init command, a
carriage-return skip and an unknown-byte skip. -/
theorem C3_span_coverage_witness :
    tilesB 0 4 ((rawEvents [0x1B, 0x40, 0x0D, 0xFF]).map eventSpan) = true ∧
    (1 ≤ 1 ∧ 1 ≤ 3) ∧
    spanChainB 0 (parseEscpos [0x1B, 0x40, 0x0D, 0xFF]).1 = true := by
  refine ⟨(C3_span_coverage [0x1B, 0x40, 0x0D, 0xFF]).1, ?_, (C3_span_coverage [0x1B, 0x40, 0x0D, 0xFF]).2.2⟩
  exact (C3_span_coverage [0x1B, 0x40, 0x0D, 0xFF]).2.1 2 1 (by decide)

/-- The input refuting claim C3 as stated: two band stripes separated by
a line feed, a trailing line feed, then a text byte. -/
def c3Input : List Nat :=
  [0x1B, 0x2A, 0x00, 0x01, 0x00, 0xAA, 0x0A,
   0x1B, 0x2A, 0x00, 0x01, 0x00, 0x0F, 0x0A, 0x41]

/-- Counterexample to claim C3 as stated: on `c3Input` the returned
(post-merge) command spans plus all skipped bytes cover 14 bytes of a
15-byte input — the trailing line feed byte of the merged run is covered
by neither a command span nor a skip, so the exact-coverage claim fails
for the returned command list. -/
theorem C3_counterexample :
    ((parseEscpos c3Input).1.map (fun c => c.span.2 - c.span.1)).sum +
      ((rawEvents c3Input).filterMap (fun e => match e with
        | .skip _ l => some l
        | .cmd _ => none)).sum ≠ c3Input.length := by decide

/-- Claim C9: the parse terminates — the cursor strictly increases on
every iteration of the main loop in every branch, the loop result is
already stable at fuel `data.length`, and every well-typed input within
the size bound yields a command list and warning list (warnings are
never fatal). -/
theorem C9_parse_termination :
    (∀ (data : List Nat) (pos : Nat), pos < data.length →
      1 ≤ (parseStep data pos).adv) ∧
    (∀ (data : List Nat) (f1 f2 pos : Nat),
      data.length - pos ≤ f1 → data.length - pos ≤ f2 →
      parseLoop data f1 pos = parseLoop data f2 pos) ∧
    (∀ data : List Nat, data.length ≤ MAX_INPUT_SIZE →
      parseEscposChecked (.bytes data) = .ok (parseEscpos data)) := by
  refine ⟨?_, ?_, ?_⟩
  · intro data pos hpos
    exact (parseStep_ok data pos hpos).1
  · intro data f1 f2 pos h1 h2
    exact parseLoop_fuel data f1 f2 pos h1 h2
  · intro data hlen
    simp only [parseEscposChecked]
    rw [if_neg (by omega)]

/-- Witness for C9 on the buffer `[FF]` and on fuel one beyond the
minimum. -/
theorem C9_parse_termination_witness :
    1 ≤ (parseStep [0xFF] 0).adv ∧
    parseLoop [0xFF] 1 0 = parseLoop [0xFF] 5 0 ∧
    parseEscposChecked (.bytes [0xFF]) = .ok (parseEscpos [0xFF]) := by
  refine ⟨C9_parse_termination.1 [0xFF] 0 (by decide), ?_, ?_⟩
  · exact C9_parse_termination.2.1 [0xFF] 1 5 0 (by decide) (by decide)
  · exact C9_parse_termination.2.2 [0xFF] (by decide)

/-! ## Combined-buffer layout machinery for the stripe merger -/

theorem foldl_append_flatten (sds : List (List Nat)) (g : List Nat → List Nat) :
    ∀ (acc : List Nat),
    sds.foldl (fun a sd => a ++ g sd) acc = acc ++ (sds.map g).flatten := by
  induction sds with
  | nil => intro acc; simp
  | cons sd rest ih =>
    intro acc
    simp only [List.foldl_cons, List.map_cons, List.flatten_cons]
    rw [ih (acc ++ g sd), List.append_assoc]

theorem combineData_eq (width bpcps : Nat) (sds : List (List Nat)) :
    combineData width bpcps sds =
      ((List.range width).map (fun col =>
        (sds.map (fun sd => (sd.drop (col * bpcps)).take bpcps)).flatten)).flatten := by
  unfold combineData
  have main : ∀ (cols : List Nat) (acc : List Nat),
      cols.foldl (fun acc col =>
        sds.foldl (fun a sd => a ++ ((sd.drop (col * bpcps)).take bpcps)) acc) acc =
      acc ++ (cols.map (fun col =>
        (sds.map (fun sd => (sd.drop (col * bpcps)).take bpcps)).flatten)).flatten := by
    intro cols
    induction cols with
    | nil => intro acc; simp
    | cons col rest ih =>
      intro acc
      simp only [List.foldl_cons, List.map_cons, List.flatten_cons]
      rw [foldl_append_flatten, ih, List.append_assoc]
  rw [main]
  simp

theorem flatten_length_const (L : Nat) : ∀ (ls : List (List Nat)),
    (∀ l ∈ ls, l.length = L) → ls.flatten.length = ls.length * L := by
  intro ls
  induction ls with
  | nil => intro _; simp
  | cons hd tl ih =>
    intro h
    simp only [List.flatten_cons, List.length_append, List.length_cons]
    rw [h hd (List.mem_cons_self hd tl), ih (fun l hl => h l (List.mem_cons_of_mem hd hl)),
      Nat.succ_mul]
    omega

theorem flatten_getD_const (L : Nat) : ∀ (ls : List (List Nat)) (q r : Nat),
    (∀ l ∈ ls, l.length = L) → q < ls.length → r < L →
    ls.flatten.getD (q * L + r) 0 = (ls.getD q []).getD r 0 := by
  intro ls
  induction ls with
  | nil => intro q r _ hq _; simp at hq
  | cons hd tl ih =>
    intro q r h hq hr
    cases q with
    | zero =>
      simp only [List.flatten_cons, List.getD_cons_zero, Nat.zero_mul, Nat.zero_add]
      exact List.getD_append hd tl.flatten 0 r (by rw [h hd (List.mem_cons_self hd tl)]; omega)
    | succ q =>
      simp only [List.flatten_cons, List.getD_cons_succ]
      rw [List.getD_append_right hd tl.flatten 0 ((q + 1) * L + r)
        (by rw [h hd (List.mem_cons_self hd tl), Nat.succ_mul]; omega)]
      rw [h hd (List.mem_cons_self hd tl)]
      have hidx : (q + 1) * L + r - L = q * L + r := by
        rw [Nat.succ_mul]; omega
      rw [hidx]
      exact ih q r (fun l hl => h l (List.mem_cons_of_mem hd hl)) (by simpa using hq) hr

theorem slice_length (w c col : Nat) (sd : List Nat) (hsd : sd.length = w * c)
    (hcol : col < w) : ((sd.drop (col * c)).take c).length = c := by
  simp only [List.length_take, List.length_drop, hsd]
  have : (col + 1) * c ≤ w * c := Nat.mul_le_mul_right c (by omega)
  rw [Nat.succ_mul] at this
  omega

theorem slice_getD (c col b : Nat) (sd : List Nat) (hb : b < c)
    (hlen : col * c + c ≤ sd.length) :
    ((sd.drop (col * c)).take c).getD b 0 = sd.getD (col * c + b) 0 := by
  have hb1 : b < ((sd.drop (col * c)).take c).length := by
    simp only [List.length_take, List.length_drop]
    omega
  have hb2 : col * c + b < sd.length := by omega
  rw [List.getD_eq_getElem _ _ hb1, List.getD_eq_getElem _ _ hb2,
    List.getElem_take, List.getElem_drop]

theorem combineData_length (w c : Nat) (sds : List (List Nat))
    (hlens : ∀ d ∈ sds, d.length = w * c) :
    (combineData w c sds).length = w * (sds.length * c) := by
  rw [combineData_eq]
  rw [flatten_length_const (sds.length * c)]
  · simp
  · intro l hl
    obtain ⟨col, hcol, rfl⟩ := List.mem_map.mp hl
    rw [flatten_length_const c]
    · simp
    · intro sl hsl
      obtain ⟨sd, hsd, rfl⟩ := List.mem_map.mp hsl
      exact slice_length w c col sd (hlens sd hsd) (List.mem_range.mp hcol)

theorem combineData_getD (w c : Nat) (sds : List (List Nat))
    (hlens : ∀ d ∈ sds, d.length = w * c) (x i b : Nat)
    (hx : x < w) (hi : i < sds.length) (hb : b < c) :
    (combineData w c sds).getD (x * (sds.length * c) + (i * c + b)) 0 =
      (sds.getD i []).getD (x * c + b) 0 := by
  rw [combineData_eq]
  have hblock : ∀ l ∈ (List.range w).map (fun col =>
      (sds.map (fun sd => (sd.drop (col * c)).take c)).flatten), l.length = sds.length * c := by
    intro l hl
    obtain ⟨col, hcol, rfl⟩ := List.mem_map.mp hl
    rw [flatten_length_const c]
    · simp
    · intro sl hsl
      obtain ⟨sd, hsd, rfl⟩ := List.mem_map.mp hsl
      exact slice_length w c col sd (hlens sd hsd) (List.mem_range.mp hcol)
  have hr : i * c + b < sds.length * c := by
    have : (i + 1) * c ≤ sds.length * c := Nat.mul_le_mul_right c (by omega)
    rw [Nat.succ_mul] at this
    omega
  rw [flatten_getD_const (sds.length * c) _ x (i * c + b) hblock (by simpa using hx) hr]
  have hget1 : ((List.range w).map (fun col =>
      (sds.map (fun sd => (sd.drop (col * c)).take c)).flatten)).getD x [] =
      (sds.map (fun sd => (sd.drop (x * c)).take c)).flatten := by
    have hx1 : x < ((List.range w).map (fun col =>
        (sds.map (fun sd => (sd.drop (col * c)).take c)).flatten)).length := by simpa using hx
    rw [List.getD_eq_getElem _ _ hx1, List.getElem_map, List.getElem_range]
  rw [hget1]
  have hslice : ∀ sl ∈ sds.map (fun sd => (sd.drop (x * c)).take c), sl.length = c := by
    intro sl hsl
    obtain ⟨sd, hsd, rfl⟩ := List.mem_map.mp hsl
    exact slice_length w c x sd (hlens sd hsd) hx
  rw [flatten_getD_const c _ i b hslice (by simpa using hi) hb]
  have hget2 : (sds.map (fun sd => (sd.drop (x * c)).take c)).getD i [] =
      ((sds.getD i []).drop (x * c)).take c := by
    have hi1 : i < (sds.map (fun sd => (sd.drop (x * c)).take c)).length := by simpa using hi
    rw [List.getD_eq_getElem _ _ hi1, List.getElem_map, List.getD_eq_getElem _ _ hi]
  rw [hget2]
  have hmem : sds.getD i [] ∈ sds := by
    rw [List.getD_eq_getElem _ _ hi]
    exact List.getElem_mem hi
  exact slice_getD c x b (sds.getD i []) hb
    (by rw [hlens _ hmem]
        have : (x + 1) * c ≤ w * c := Nat.mul_le_mul_right c (by omega)
        rw [Nat.succ_mul] at this
        omega)

/-- Pointwise value of the band decoder on a sufficient buffer. -/
theorem decodeBitImage_getD (w height c : Nat) (data : List Nat)
    (hlen : w * c ≤ data.length) (hh : c * 8 ≤ height) (x y : Nat)
    (hx : x < w) (hy : y < c * 8) :
    decodeBitImage w height c data x y =
      (data.getD (x * c + y / 8) 0).testBit (7 - y % 8) := by
  have hbase : List.range w = List.range' 0 w := List.range_eq_range' w
  obtain ⟨-, h2⟩ := decodeColumns_spec data height c w 0 0 (fun _ _ => false)
    (by omega) hh
  unfold decodeBitImage
  rw [hbase, h2 x y, if_pos ⟨by omega, by omega, hy⟩]
  have : 0 + (x - 0) * c + y / 8 = x * c + y / 8 := by simp
  rw [this]

/-- The band decoder never paints outside the `w × (c*8)` region. -/
theorem decodeBitImage_outside (w height c : Nat) (data : List Nat)
    (hlen : w * c ≤ data.length) (hh : c * 8 ≤ height) (a y : Nat)
    (h : w ≤ a ∨ c * 8 ≤ y) :
    decodeBitImage w height c data a y = false := by
  have hbase : List.range w = List.range' 0 w := List.range_eq_range' w
  obtain ⟨-, h2⟩ := decodeColumns_spec data height c w 0 0 (fun _ _ => false)
    (by omega) hh
  unfold decodeBitImage
  rw [hbase, h2 a y, if_neg (by omega)]

theorem combineModeBpc_pos (mode : Nat) : 1 ≤ combineModeBpc mode := by
  unfold combineModeBpc
  split_ifs <;> omega

/-! ## Claims C2 and C10 -/

/-- Claim C2: a maximal run of matching band-image stripes (line feeds in
between skipped) is replaced by a single `bit_image` command whose height
is `k` times the per-stripe height and whose stripe count is `k`; the
merged raw buffer concatenates, column by column, each stripe's byte
slice in stripe order; decoding the merged buffer reproduces each stripe
in its own row band; runs of length 1 are left untouched. -/
theorem C2_stripe_merge (s0 : Command) (srest tail rest : List Command)
    (w c : Nat) (sds : List (List Nat))
    (h0 : s0.name = "bit_image")
    (hrt : RunTail (getP s0.params "width") (getP s0.params "mode") tail srest rest)
    (hne : srest ≠ [])
    (hsds : sds = (s0 :: srest).map (fun s => s.escposBytes.drop 5))
    (hw : paramNat s0.params "width" = w)
    (hc : combineModeBpc (paramNat s0.params "mode") = c)
    (hlens : ∀ d ∈ sds, d.length = w * c) :
    mergeStripes (s0 :: tail) = combineStripes s0 srest :: mergeStripes rest ∧
    getP (combineStripes s0 srest).params "height" =
      some (.nat (paramNat s0.params "height" * (s0 :: srest).length)) ∧
    getP (combineStripes s0 srest).params "stripe_count" =
      some (.nat (s0 :: srest).length) ∧
    (∀ x i b, x < w → i < sds.length → b < c →
      (combineData w c sds).getD (x * (sds.length * c) + (i * c + b)) 0 =
        (sds.getD i []).getD (x * c + b) 0) ∧
    (∀ x i r, x < w → i < sds.length → r < 8 * c →
      decodeBitImage w (8 * c * sds.length) (c * sds.length) (combineData w c sds)
          x (i * (8 * c) + r) =
        decodeBitImage w (8 * c) c (sds.getD i []) x r) ∧
    (∀ (t2 r2 : List Command),
      RunTail (getP s0.params "width") (getP s0.params "mode") t2 [] r2 →
      mergeStripes (s0 :: t2) = s0 :: mergeStripes t2) := by
  refine ⟨mergeStripes_run s0 tail srest rest h0 hrt hne, rfl, rfl, ?_, ?_, ?_⟩
  · intro x i b hx hi hb
    exact combineData_getD w c sds hlens x i b hx hi hb
  · intro x i r hx hi hr
    have hcd : (combineData w c sds).length = w * (sds.length * c) :=
      combineData_length w c sds hlens
    have hy : i * (8 * c) + r < c * sds.length * 8 := by
      calc i * (8 * c) + r < i * (8 * c) + 8 * c := by omega
        _ = (i + 1) * (8 * c) := by ring
        _ ≤ sds.length * (8 * c) := Nat.mul_le_mul_right _ (by omega)
        _ = c * sds.length * 8 := by ring
    rw [decodeBitImage_getD w (8 * c * sds.length) (c * sds.length) (combineData w c sds)
      (le_of_eq (by rw [hcd]; ring)) (le_of_eq (by ring)) x (i * (8 * c) + r) hx hy]
    have hdiv : (i * (8 * c) + r) / 8 = i * c + r / 8 := by
      rw [show i * (8 * c) + r = r + (i * c) * 8 from by ring,
        Nat.add_mul_div_right _ _ (by norm_num : 0 < 8)]
      omega
    have hmod : (i * (8 * c) + r) % 8 = r % 8 := by
      rw [show i * (8 * c) + r = r + (i * c) * 8 from by ring,
        Nat.add_mul_mod_self_right]
    rw [hdiv, hmod]
    have hidx : x * (c * sds.length) + (i * c + r / 8) =
        x * (sds.length * c) + (i * c + r / 8) := by
      rw [Nat.mul_comm c sds.length]
    rw [hidx, combineData_getD w c sds hlens x i (r / 8) hx hi (by omega)]
    have hmem : sds.getD i [] ∈ sds := by
      rw [List.getD_eq_getElem _ _ hi]
      exact List.getElem_mem hi
    rw [decodeBitImage_getD w (8 * c) c (sds.getD i [])
      (le_of_eq (hlens _ hmem).symm) (le_of_eq (by ring)) x r hx (by omega)]
  · intro t2 r2 hrt2
    exact mergeStripes_single s0 t2 r2 h0 hrt2

/-- Claim C10: fusing a run removes exactly the skipped line feeds (both
between the stripes and trailing after the last one), and preserves,
unchanged and in order, the commands before the run and the continuation
after it. -/
theorem C10_merge_frame (pre : List Command) (s0 : Command)
    (tail stripes rest : List Command)
    (hpre : ∀ c ∈ pre, c.name ≠ "bit_image")
    (h0 : s0.name = "bit_image")
    (hrt : RunTail (getP s0.params "width") (getP s0.params "mode") tail stripes rest)
    (hne : stripes ≠ []) :
    mergeStripes (pre ++ s0 :: tail) =
      pre ++ combineStripes s0 stripes :: mergeStripes rest ∧
    (∀ c ∈ tail, c ∈ stripes ∨ c.name = "line_feed" ∨ c ∈ rest) ∧
    (∀ c ∈ stripes, c.name = "bit_image") := by
  refine ⟨?_, runTail_members _ _ hrt, fun c hc => (runTail_stripes _ _ hrt c hc).1⟩
  have h1 : mergeStripes (pre ++ s0 :: tail) = pre ++ mergeStripes (s0 :: tail) := by
    unfold mergeStripes
    exact mergeStripes_nonimage pre (pre ++ s0 :: tail).length (s0 :: tail) hpre le_rfl
  rw [h1, mergeStripes_run s0 tail stripes rest h0 hrt hne]

/-! Concrete stripes for the merger witnesses. -/

def wInit : Command := mkCmd "initialize" [0x1B, 0x40] [] 0 2

def wStripeA : Command := mkCmd "bit_image" [0x1B, 0x2A, 0x00, 0x01, 0x00, 0xAA]
  [("width", .nat 1), ("height", .nat 8), ("mode", .nat 0), ("type", .str "bit_image")] 2 8

def wLfA : Command := mkCmd "line_feed" [0x0A] [] 8 9

def wStripeB : Command := mkCmd "bit_image" [0x1B, 0x2A, 0x00, 0x01, 0x00, 0x0F]
  [("width", .nat 1), ("height", .nat 8), ("mode", .nat 0), ("type", .str "bit_image")] 9 15

def wLfB : Command := mkCmd "line_feed" [0x0A] [] 15 16

def wText : Command := mkCmd "text" [0x41] [("text", .str "A")] 16 17

/-- The merger look-ahead over `[LF, stripe B, LF, text]` collects
stripe B and leaves the text command. -/
theorem wRunTail : RunTail (getP wStripeA.params "width") (getP wStripeA.params "mode")
    [wLfA, wStripeB, wLfB, wText] [wStripeB] [wText] := by
  refine RunTail.lf wLfA [wStripeB, wLfB, wText] [wStripeB] [wText] rfl ?_
  refine RunTail.take wStripeB [wLfB, wText] [] [wText] rfl (by decide) (by decide) ?_
  refine RunTail.lf wLfB [wText] [] [wText] rfl ?_
  exact RunTail.brk wText [] (by decide) (by decide)

/-- Witness for C2 at two one-column stripes with bytes `AA` and `0F`. -/
theorem C2_stripe_merge_witness :
    mergeStripes (wStripeA :: [wLfA, wStripeB, wLfB, wText]) =
      combineStripes wStripeA [wStripeB] :: mergeStripes [wText] ∧
    getP (combineStripes wStripeA [wStripeB]).params "height" = some (.nat 16) ∧
    decodeBitImage 1 16 2 (combineData 1 1 [[0xAA], [0x0F]]) 0 (1 * (8 * 1) + 3) =
      decodeBitImage 1 8 1 [0x0F] 0 3 := by
  have h := C2_stripe_merge wStripeA [wStripeB] [wLfA, wStripeB, wLfB, wText] [wText]
    1 1 [[0xAA], [0x0F]] rfl wRunTail (by decide) (by decide) rfl rfl (by decide)
  refine ⟨h.1, ?_, ?_⟩
  · rw [h.2.1]; decide
  · have h5 := h.2.2.2.2.1 0 1 3 (by decide) (by decide) (by decide)
    simpa using h5
/-- Witness for C10 at the same stripes, behind a non-image prefix. -/
theorem C10_merge_frame_witness :
    mergeStripes ([wInit] ++ wStripeA :: [wLfA, wStripeB, wLfB, wText]) =
      [wInit] ++ combineStripes wStripeA [wStripeB] :: mergeStripes [wText] ∧
    (wLfA ∈ [wStripeB] ∨ wLfA.name = "line_feed" ∨ wLfA ∈ [wText]) := by
  have h := C10_merge_frame [wInit] wStripeA [wLfA, wStripeB, wLfB, wText]
    [wStripeB] [wText] (by intro c hc; simp_all [wInit, mkCmd]) rfl wRunTail (by decide)
  exact ⟨h.1, h.2.1 wLfA (by simp)⟩

/-! ## Claims C5 and C8 -/

/-- Claim C5, amended: a recognized ESC or GS prefix followed by
insufficient trailing bytes — including a band image whose buffer is
shorter than header plus `width * bytes_per_column` of data — emits no
Command, advances the cursor by the prefix length (one byte for a lone
prefix at buffer end, two otherwise) and parsing continues; but no
Warning is recorded.  (The original claim asserts a Warning is recorded;
see the counterexample.) -/
theorem C5_truncated_commands (data : List Nat) (pos : Nat) :
    (data.getD pos 0 = ESC → pos < data.length → data.length ≤ pos + 1 →
      parseStep data pos = ⟨[.skip pos 1], [], 1⟩) ∧
    (data.getD pos 0 = ESC → pos + 1 < data.length →
      data.getD (pos + 1) 0 ∈ [ESC_BOLD, ESC_UNDERLINE, ESC_ALIGN, ESC_PRINT_MODE] →
      data.length ≤ pos + 2 →
      parseStep data pos = ⟨[.skip pos 2], [], 2⟩) ∧
    (data.getD pos 0 = ESC → pos + 1 < data.length →
      data.getD (pos + 1) 0 = ESC_BIT_IMAGE → data.length ≤ pos + 4 →
      parseStep data pos = ⟨[.skip pos 2], [], 2⟩) ∧
    (data.getD pos 0 = ESC → pos + 4 < data.length →
      data.getD (pos + 1) 0 = ESC_BIT_IMAGE →
      data.length < pos + (5 + (data.getD (pos + 3) 0 + data.getD (pos + 4) 0 * 256) *
        (modeTable (data.getD (pos + 2) 0)).1) →
      parseStep data pos = ⟨[.skip pos 2], [], 2⟩) ∧
    (data.getD pos 0 = GS → pos < data.length → data.length ≤ pos + 1 →
      parseStep data pos = ⟨[.skip pos 1], [], 1⟩) ∧
    (data.getD pos 0 = GS → pos + 1 < data.length →
      data.getD (pos + 1) 0 ∈ [GS_CUT, GS_CHAR_SIZE] → data.length ≤ pos + 2 →
      parseStep data pos = ⟨[.skip pos 2], [], 2⟩) ∧
    (data.getD pos 0 = GS → pos + 1 < data.length →
      data.getD (pos + 1) 0 = GS_RASTER_IMAGE → data.length ≤ pos + 7 →
      parseStep data pos = ⟨[.skip pos 2], [], 2⟩) ∧
    (data.getD pos 0 = GS → pos + 7 < data.length →
      data.getD (pos + 1) 0 = GS_RASTER_IMAGE →
      (data.getD (pos + 2) 0 = 0x30 ∨ data.getD (pos + 2) 0 = 0x00) →
      data.length < pos + (8 + (data.getD (pos + 4) 0 + data.getD (pos + 5) 0 * 256) *
        (data.getD (pos + 6) 0 + data.getD (pos + 7) 0 * 256)) →
      parseStep data pos = ⟨[.skip pos 2], [], 2⟩) := by
  have hdispE : data.getD pos 0 = ESC → parseStep data pos = parseEsc data pos := by
    intro hb
    unfold parseStep
    dsimp only
    rw [if_pos hb]
  have hdispG : data.getD pos 0 = GS → parseStep data pos = parseGs data pos := by
    intro hb
    unfold parseStep
    dsimp only
    rw [if_neg (by rw [hb]; decide), if_pos hb]
  refine ⟨?_, ?_, ?_, ?_, ?_, ?_, ?_, ?_⟩
  · intro hb hpos hlen
    rw [hdispE hb]
    unfold parseEsc
    rw [if_pos hlen]
  · intro hb hpos hmem hlen
    rw [hdispE hb]
    unfold parseEsc
    rw [if_neg (by omega)]
    dsimp only
    simp only [List.mem_cons, List.mem_singleton, List.not_mem_nil, or_false] at hmem
    rcases hmem with hc | hc | hc | hc
    · rw [hc, if_neg (by decide), if_pos rfl]
      unfold escBold
      rw [if_pos hlen]
    · rw [hc, if_neg (by decide), if_neg (by decide), if_pos rfl]
      unfold escUnderline
      rw [if_pos hlen]
    · rw [hc, if_neg (by decide), if_neg (by decide), if_neg (by decide), if_pos rfl]
      unfold escAlign
      rw [if_pos hlen]
    · rw [hc, if_neg (by decide), if_neg (by decide), if_neg (by decide), if_neg (by decide),
        if_neg (by decide), if_pos rfl]
      unfold escPrintMode
      rw [if_pos hlen]
  · intro hb hpos hc hlen
    rw [hdispE hb]
    unfold parseEsc
    rw [if_neg (by omega)]
    dsimp only
    rw [hc, if_neg (by decide), if_neg (by decide), if_neg (by decide), if_neg (by decide),
      if_pos rfl]
    unfold escBitImage
    rw [if_pos hlen]
  · intro hb hpos hc hshort
    rw [hdispE hb]
    unfold parseEsc
    rw [if_neg (by omega)]
    dsimp only
    rw [hc, if_neg (by decide), if_neg (by decide), if_neg (by decide), if_neg (by decide),
      if_pos rfl]
    unfold escBitImage
    rw [if_neg (by omega)]
    dsimp only
    rw [if_neg (by omega)]
  · intro hb hpos hlen
    rw [hdispG hb]
    unfold parseGs
    rw [if_pos hlen]
  · intro hb hpos hmem hlen
    rw [hdispG hb]
    unfold parseGs
    rw [if_neg (by omega)]
    dsimp only
    simp only [List.mem_cons, List.mem_singleton, List.not_mem_nil, or_false] at hmem
    rcases hmem with hc | hc
    · rw [hc, if_pos rfl]
      unfold gsCut
      rw [if_pos hlen]
    · rw [hc, if_neg (by decide), if_neg (by decide), if_pos rfl]
      unfold gsCharSize
      rw [if_pos hlen]
  · intro hb hpos hc hlen
    rw [hdispG hb]
    unfold parseGs
    rw [if_neg (by omega)]
    dsimp only
    rw [hc, if_neg (by decide), if_pos rfl]
    unfold gsRasterImage
    rw [if_pos hlen]
  · intro hb hpos hc hsub hshort
    rw [hdispG hb]
    unfold parseGs
    rw [if_neg (by omega)]
    dsimp only
    rw [hc, if_neg (by decide), if_pos rfl]
    unfold gsRasterImage
    rw [if_neg (by omega)]
    dsimp only
    rw [if_pos hsub, if_neg (by omega)]

/-- Witness for C5: a truncated ESC E at the buffer end, and a GS v 0
raster header announcing more data than the buffer holds. -/
theorem C5_truncated_commands_witness :
    parseStep [0x1B, 0x45] 0 = ⟨[.skip 0 2], [], 2⟩ ∧
    parseStep [0x1D, 0x76, 0x30, 0x00, 0x01, 0x00, 0x01, 0x00] 0 =
      ⟨[.skip 0 2], [], 2⟩ := by
  constructor
  · exact (C5_truncated_commands [0x1B, 0x45] 0).2.1 (by decide) (by decide)
      (by decide) (by decide)
  · exact (C5_truncated_commands [0x1D, 0x76, 0x30, 0x00, 0x01, 0x00, 0x01, 0x00] 0).2.2.2.2.2.2.2
      (by decide) (by decide) (by decide) (by decide) (by decide)

/-- Counterexample to claim C5 as stated: the truncated bold command
`[1B 45]` and a truncated band image `[1B 2A 20 41 20]` are skipped with
NO Warning recorded, while the claim requires one. -/
theorem C5_counterexample :
    parseEscpos [0x1B, 0x45] = ([], []) ∧
    rawWarnings [0x1B, 0x2A, 0x20, 0x41, 0x20] = [] ∧
    (parseEscpos [0x1B, 0x2A, 0x20, 0x41, 0x20]).1.all
      (fun c => c.name != "bit_image") = true := by decide

/-- Claim C8, amended: the ESC `*` mode byte selects bytes-per-column and
per-stripe height through the fixed table — modes 0,1 map to (1 byte, 8
dots), modes 2,3 to (2 bytes, 16 dots), modes 32,33 to (3 bytes, 24
dots) — and any other mode silently defaults to (1 byte, 8 dots) without
recording a Warning.  (The original claim asserts a Warning is recorded
for unknown modes; see the counterexample.) -/
theorem C8_mode_table (mode : Nat) (data : List Nat) (pos : Nat) :
    ((mode = 0 ∨ mode = 1) → modeTable mode = (1, 8)) ∧
    ((mode = 2 ∨ mode = 3) → modeTable mode = (2, 16)) ∧
    ((mode = 32 ∨ mode = 33) → modeTable mode = (3, 24)) ∧
    (¬ (mode = 0 ∨ mode = 1 ∨ mode = 2 ∨ mode = 3 ∨ mode = 32 ∨ mode = 33) →
      modeTable mode = (1, 8)) ∧
    (data.getD pos 0 = ESC → data.getD (pos + 1) 0 = ESC_BIT_IMAGE →
      pos + 4 < data.length →
      pos + (5 + (data.getD (pos + 3) 0 + data.getD (pos + 4) 0 * 256) *
        (modeTable (data.getD (pos + 2) 0)).1) ≤ data.length →
      (parseStep data pos).warns = [] ∧
      (parseStep data pos).events = [.cmd (mkCmd "bit_image"
        ((data.drop pos).take (5 + (data.getD (pos + 3) 0 + data.getD (pos + 4) 0 * 256) *
          (modeTable (data.getD (pos + 2) 0)).1))
        [("width", .nat (data.getD (pos + 3) 0 + data.getD (pos + 4) 0 * 256)),
         ("height", .nat (modeTable (data.getD (pos + 2) 0)).2),
         ("mode", .nat (data.getD (pos + 2) 0)), ("type", .str "bit_image"),
         ("base64", mkBase64 (data.getD (pos + 3) 0 + data.getD (pos + 4) 0 * 256)
           (modeTable (data.getD (pos + 2) 0)).2
           (decodeBitImage (data.getD (pos + 3) 0 + data.getD (pos + 4) 0 * 256)
             (modeTable (data.getD (pos + 2) 0)).2 (modeTable (data.getD (pos + 2) 0)).1
             ((data.drop (pos + 5)).take ((data.getD (pos + 3) 0 + data.getD (pos + 4) 0 * 256) *
               (modeTable (data.getD (pos + 2) 0)).1))))]
        pos (pos + (5 + (data.getD (pos + 3) 0 + data.getD (pos + 4) 0 * 256) *
          (modeTable (data.getD (pos + 2) 0)).1)))]) := by
  refine ⟨?_, ?_, ?_, ?_, ?_⟩
  · intro h; rcases h with rfl | rfl <;> rfl
  · intro h; rcases h with rfl | rfl <;> rfl
  · intro h; rcases h with rfl | rfl <;> rfl
  · intro h
    push_neg at h
    unfold modeTable
    rw [if_neg (by omega), if_neg (by omega), if_neg (by omega)]
  · intro hb hc hpos hlen
    have hdispE : parseStep data pos = parseEsc data pos := by
      unfold parseStep
      dsimp only
      rw [if_pos hb]
    rw [hdispE]
    unfold parseEsc
    rw [if_neg (by omega)]
    dsimp only
    rw [hc, if_neg (by decide), if_neg (by decide), if_neg (by decide), if_neg (by decide),
      if_pos rfl]
    unfold escBitImage
    rw [if_neg (by omega)]
    dsimp only
    rw [if_pos (by omega)]
    exact ⟨rfl, rfl⟩

/-- Witness for C8: the unknown mode 4 defaults to one byte per column
and eight dots, with no warning, on a concrete full band command. -/
theorem C8_mode_table_witness :
    modeTable 4 = (1, 8) ∧
    (parseStep [0x1B, 0x2A, 0x04, 0x01, 0x00, 0xFF] 0).warns = [] := by
  refine ⟨(C8_mode_table 4 [] 0).2.2.2.1 (by decide), ?_⟩
  exact ((C8_mode_table 4 [0x1B, 0x2A, 0x04, 0x01, 0x00, 0xFF] 0).2.2.2.2
    (by decide) (by decide) (by decide) (by decide)).1

/-- Counterexample to claim C8 as stated: parsing a band image with the
unrecognized mode 4 applies the (1 byte, 8 dot) default and records NO
Warning, while the claim requires one. -/
theorem C8_counterexample :
    (parseEscpos [0x1B, 0x2A, 0x04, 0x01, 0x00, 0xFF]).2 = [] ∧
    getP ((parseEscpos [0x1B, 0x2A, 0x04, 0x01, 0x00, 0xFF]).1.headD
      (mkCmd "" [] [] 0 0)).params "height" = some (.nat 8) := by decide

/-! ## Round-trip verifier -/

/-- Embeds `filter_impl_details` inside `_semantically_equivalent`: drop
commands whose kind is `unknown` (python-escpos internals). -/
def filterImplDetails (cmds : List Command) : List Command :=
  cmds.filter (fun c => c.name != "unknown")

/-- Embeds `_semantically_equivalent`: equal filtered lengths and
pairwise-equal command names and parameter maps. -/
def semanticallyEquivalent (cmds1 cmds2 : List Command) : Bool :=
  let f1 := filterImplDetails cmds1
  let f2 := filterImplDetails cmds2
  if f1.length ≠ f2.length then false
  else (f1.zip f2).all (fun p => p.1.name == p.2.name && decide (p.1.params = p.2.params))

/-- The first-difference loop of `_create_byte_diff`: scan `n` positions
starting at `i` and report the first index whose bytes differ, together
with both byte values. -/
def firstDiffLoop (original generated : List Nat) : Nat → Nat → Option (Nat × Nat × Nat)
  | _, 0 => none
  | i, n + 1 =>
    if original.getD i 0 ≠ generated.getD i 0 then
      some (i, original.getD i 0, generated.getD i 0)
    else firstDiffLoop original generated (i + 1) n

/-- Structured content of the `_create_byte_diff` report: both lengths
and the offset and byte values of the first differing byte. -/
structure ByteDiff where
  originalLen : Nat
  generatedLen : Nat
  firstDifference : Option (Nat × Nat × Nat)
deriving DecidableEq, Repr

/-- Embeds `_create_byte_diff`. -/
def createByteDiff (original generated : List Nat) : ByteDiff :=
  ⟨original.length, generated.length,
    firstDiffLoop original generated 0 (min original.length generated.length)⟩

/-- Structured verification outcomes of `verify`. -/
inductive VerifyMsg where
  | byteForByte
  | semanticEquiv
  | failedDiff (d : ByteDiff)
  | verifyError
deriving DecidableEq, Repr

/-- The body of `verify` inside its `try` block: byte comparison, then
optional semantic comparison (whose nested parses may raise), then the
failure diff.  A raised parse error propagates to the handler. -/
def verifyBody (originalBytes generatedBytes : List Nat) (semantic : Bool) :
    Except ParseErr (Bool × VerifyMsg) :=
  if originalBytes = generatedBytes then .ok (true, .byteForByte)
  else if semantic then
    match parseEscposChecked (.bytes originalBytes) with
    | .error e => .error e
    | .ok o =>
      match parseEscposChecked (.bytes generatedBytes) with
      | .error e => .error e
      | .ok g =>
        if semanticallyEquivalent o.1 g.1 then .ok (true, .semanticEquiv)
        else .ok (false, .failedDiff (createByteDiff originalBytes generatedBytes))
  else .ok (false, .failedDiff (createByteDiff originalBytes generatedBytes))

/-- Embeds `verify`.  Executing the generated call sequence through the
external backend is abstracted as its materialized outcome `execRes`:
either the produced bytes or an exception.  Any exception — from the
backend or from the nested parses — is caught and reported as a
verification error rather than propagated. -/
def verify (originalBytes : List Nat) (execRes : Except String (List Nat))
    (semantic : Bool) : Bool × VerifyMsg :=
  match execRes with
  | .error _ => (false, .verifyError)
  | .ok generatedBytes =>
    match verifyBody originalBytes generatedBytes semantic with
    | .ok r => r
    | .error _ => (false, .verifyError)

theorem firstDiffLoop_none (o g : List Nat) : ∀ (n i : Nat),
    firstDiffLoop o g i n = none ↔ ∀ j, j < n → o.getD (i + j) 0 = g.getD (i + j) 0 := by
  intro n
  induction n with
  | zero => intro i; simp [firstDiffLoop]
  | succ n ih =>
    intro i
    unfold firstDiffLoop
    split_ifs with h
    · constructor
      · intro hc; exact absurd hc (by simp)
      · intro hall
        exact absurd (hall 0 (by omega)) (by simpa using h)
    · rw [ih (i + 1)]
      constructor
      · intro hall j hj
        cases j with
        | zero => simpa using not_ne_iff.mp h
        | succ j =>
          have := hall j (by omega)
          rw [show i + (j + 1) = i + 1 + j from by omega]
          exact this
      · intro hall j hj
        have := hall (j + 1) (by omega)
        rw [show i + (j + 1) = i + 1 + j from by omega] at this
        exact this

theorem firstDiffLoop_some (o g : List Nat) : ∀ (n i k a bv : Nat),
    firstDiffLoop o g i n = some (k, a, bv) →
    i ≤ k ∧ k < i + n ∧ o.getD k 0 ≠ g.getD k 0 ∧ a = o.getD k 0 ∧ bv = g.getD k 0 ∧
    ∀ j, i ≤ j → j < k → o.getD j 0 = g.getD j 0 := by
  intro n
  induction n with
  | zero => intro i k a bv hc; simp [firstDiffLoop] at hc
  | succ n ih =>
    intro i k a bv hc
    unfold firstDiffLoop at hc
    split_ifs at hc with h
    · simp only [Option.some.injEq, Prod.mk.injEq] at hc
      obtain ⟨rfl, rfl, rfl⟩ := hc
      exact ⟨le_rfl, by omega, h, rfl, rfl, fun j hj1 hj2 => absurd hj2 (by omega)⟩
    · obtain ⟨h1, h2, h3, h4, h5, h6⟩ := ih (i + 1) k a bv hc
      refine ⟨by omega, by omega, h3, h4, h5, ?_⟩
      intro j hj1 hj2
      rcases Nat.eq_or_lt_of_le hj1 with rfl | hlt
      · exact not_ne_iff.mp h
      · exact h6 j (by omega) hj2

/-! ## Claims C6 and C7 -/

/-- Claim C6: `parse_escpos` raises a type error on non-bytes input and a
value error on input longer than the 1,000,000-byte maximum, both before
any parsing; every bytes input of length at most the maximum — exactly
1,000,000 included — parses without a fatal error. -/
theorem C6_fatal_input_errors :
    MAX_INPUT_SIZE = 1000000 ∧
    (∀ t, parseEscposChecked (.other t) = .error (.typeError t)) ∧
    (∀ data : List Nat, MAX_INPUT_SIZE < data.length →
      parseEscposChecked (.bytes data) = .error .valueError) ∧
    (∀ data : List Nat, data.length ≤ MAX_INPUT_SIZE →
      parseEscposChecked (.bytes data) = .ok (parseEscpos data)) := by
  refine ⟨rfl, fun t => rfl, ?_, ?_⟩
  · intro data h
    simp only [parseEscposChecked]
    rw [if_pos h]
  · intro data h
    simp only [parseEscposChecked]
    rw [if_neg (by omega)]

/-- Witness for C6 at the size boundary: 1,000,001 bytes rejected,
1,000,000 bytes accepted. -/
theorem C6_fatal_input_errors_witness :
    parseEscposChecked (.bytes (List.replicate 1000001 0)) = .error .valueError ∧
    parseEscposChecked (.bytes (List.replicate 1000000 0)) =
      .ok (parseEscpos (List.replicate 1000000 0)) := by
  constructor
  · exact C6_fatal_input_errors.2.2.1 (List.replicate 1000001 0)
      (by rw [List.length_replicate]; decide)
  · exact C6_fatal_input_errors.2.2.2 (List.replicate 1000000 0)
      (by rw [List.length_replicate]; decide)

/-- Claim C7: the verify decision order — exact byte equality first
(byte-for-byte success), then, when semantic mode is requested, equality
of the filtered decoded command kinds and parameters (semantic success),
otherwise failure with a diff carrying both lengths and the offset and
byte values of the first (least-offset) differing byte; a backend
exception is caught and reported as a verification error, never
propagated. -/
theorem C7_verify_decision_order (o g : List Nat) (e : String) (sem : Bool) :
    verify o (.ok o) sem = (true, .byteForByte) ∧
    verify o (.error e) sem = (false, .verifyError) ∧
    (o ≠ g → o.length ≤ MAX_INPUT_SIZE → g.length ≤ MAX_INPUT_SIZE →
      semanticallyEquivalent (parseEscpos o).1 (parseEscpos g).1 = true →
      verify o (.ok g) true = (true, .semanticEquiv)) ∧
    (o ≠ g → o.length ≤ MAX_INPUT_SIZE → g.length ≤ MAX_INPUT_SIZE →
      semanticallyEquivalent (parseEscpos o).1 (parseEscpos g).1 = false →
      verify o (.ok g) true = (false, .failedDiff (createByteDiff o g))) ∧
    (o ≠ g → verify o (.ok g) false = (false, .failedDiff (createByteDiff o g))) ∧
    (createByteDiff o g).originalLen = o.length ∧
    (createByteDiff o g).generatedLen = g.length ∧
    (∀ k a bv, (createByteDiff o g).firstDifference = some (k, a, bv) →
      k < min o.length g.length ∧ o.getD k 0 ≠ g.getD k 0 ∧
      a = o.getD k 0 ∧ bv = g.getD k 0 ∧
      ∀ j, j < k → o.getD j 0 = g.getD j 0) ∧
    ((createByteDiff o g).firstDifference = none ↔
      ∀ j, j < min o.length g.length → o.getD j 0 = g.getD j 0) := by
  have hpo : o.length ≤ MAX_INPUT_SIZE →
      parseEscposChecked (.bytes o) = .ok (parseEscpos o) := by
    intro h
    simp only [parseEscposChecked]
    rw [if_neg (by omega)]
  have hpg : g.length ≤ MAX_INPUT_SIZE →
      parseEscposChecked (.bytes g) = .ok (parseEscpos g) := by
    intro h
    simp only [parseEscposChecked]
    rw [if_neg (by omega)]
  refine ⟨?_, rfl, ?_, ?_, ?_, rfl, rfl, ?_, ?_⟩
  · simp [verify, verifyBody]
  · intro hne h1 h2 heq
    simp [verify, verifyBody, hne, hpo h1, hpg h2, heq]
  · intro hne h1 h2 heq
    simp [verify, verifyBody, hne, hpo h1, hpg h2, heq]
  · intro hne
    simp [verify, verifyBody, hne]
  · intro k a bv hc
    have h := firstDiffLoop_some o g (min o.length g.length) 0 k a bv hc
    exact ⟨by omega, h.2.2.1, h.2.2.2.1, h.2.2.2.2.1,
      fun j hj => h.2.2.2.2.2 j (by omega) hj⟩
  · have h := firstDiffLoop_none o g (min o.length g.length) 0
    simpa using h

/-- Witness for C7.  The two buffers are band images with equal
dimensions but different pixel bytes (`AA` vs `0F`): their decoded
commands differ only in the image payload parameter, the comparator
rejects them, and verify reports failure with the diff — plus the exact
equality and byte-diff branches on small buffers. -/
theorem C7_verify_decision_order_witness :
    verify [0x1B, 0x2A, 0x00, 0x01, 0x00, 0xAA]
      (.ok [0x1B, 0x2A, 0x00, 0x01, 0x00, 0x0F]) true =
      (false, .failedDiff (createByteDiff [0x1B, 0x2A, 0x00, 0x01, 0x00, 0xAA]
        [0x1B, 0x2A, 0x00, 0x01, 0x00, 0x0F])) ∧
    verify [65] (.ok [65]) true = (true, .byteForByte) ∧
    verify [65] (.ok [66, 66]) false =
      (false, .failedDiff (createByteDiff [65] [66, 66])) ∧
    (createByteDiff [65] [66, 66]).firstDifference = some (0, 65, 66) := by
  have h := C7_verify_decision_order [0x1B, 0x2A, 0x00, 0x01, 0x00, 0xAA]
    [0x1B, 0x2A, 0x00, 0x01, 0x00, 0x0F] "" true
  have h2 := C7_verify_decision_order [65] [66, 66] "" true
  exact ⟨h.2.2.2.1 (by decide) (by decide) (by decide) (by decide),
    (C7_verify_decision_order [65] [65] "" true).1,
    h2.2.2.2.2.1 (by decide), by decide⟩

end EscPos
